import Mathlib

/-!
Verification of the torchgeo dataset utilities (`torchgeo/datasets/utils.py`)
against its natural-language specification.

The Python code is shallowly embedded in Lean:

* `BoundingBox` (a frozen dataclass of six floats) becomes a structure of six
  rationals; floating-point bounds are modelled as exact rationals.  The
  `__post_init__` validation is modelled by `BoundingBox.mk?`, which returns
  `none` exactly where the Python constructor raises `ValueError`; operations
  that construct a new box in Python (`__or__`, `__and__`, `split`) go through
  `mk?` so that the constructor validation is preserved.
* Fallible Python code (raising exceptions) returns `Option`/`Except`.
* External collaborators (the `fiona` directory-listing driver, the local
  `glob.iglob`, the subprocess runner's exit codes) are passed in as explicit
  function parameters, so the control flow of the repository code itself is
  embedded faithfully.
-/

/-- Data class for indexing spatiotemporal data: six bounds
`(minx, maxx, miny, maxy, mint, maxt)`.  Python's float bounds are modelled
as exact rationals. -/
structure BoundingBox where
  minx : ℚ
  maxx : ℚ
  miny : ℚ
  maxy : ℚ
  mint : ℚ
  maxt : ℚ
deriving DecidableEq, Repr

/-- The invariant established by `BoundingBox.__post_init__`:
`minx ≤ maxx`, `miny ≤ maxy`, `mint ≤ maxt`. -/
def BoundingBox.Valid (b : BoundingBox) : Prop :=
  b.minx ≤ b.maxx ∧ b.miny ≤ b.maxy ∧ b.mint ≤ b.maxt

instance (b : BoundingBox) : Decidable b.Valid := by
  unfold BoundingBox.Valid; infer_instance

/-- Model of the Python `BoundingBox(...)` constructor together with
`__post_init__`: three independent inverted-pair checks, `none` where the
Python code raises `ValueError`. -/
def BoundingBox.mk? (minx maxx miny maxy mint maxt : ℚ) : Option BoundingBox :=
  if minx > maxx then none
  else if miny > maxy then none
  else if mint > maxt then none
  else some ⟨minx, maxx, miny, maxy, mint, maxt⟩

/-- Model of `BoundingBox.__getitem__` for an integer key:
`[minx, maxx, miny, maxy, mint, maxt][key]` with Python list-index
semantics (negative indices count from the end; out-of-range raises
`IndexError`, modelled as `none`). -/
def BoundingBox.boundsList (b : BoundingBox) : List ℚ :=
  [b.minx, b.maxx, b.miny, b.maxy, b.mint, b.maxt]

def BoundingBox.getitem (b : BoundingBox) (key : ℤ) : Option ℚ :=
  if 0 ≤ key ∧ key < 6 then some (b.boundsList.getD key.toNat 0)
  else if -6 ≤ key ∧ key < 0 then some (b.boundsList.getD (key + 6).toNat 0)
  else none

/-- Model of `BoundingBox.__contains__`: whether `o` is within the bounds of
`s` — the six chained comparisons of the source, twelve inequalities. -/
def BoundingBox.contains (s o : BoundingBox) : Bool :=
  (decide (s.minx ≤ o.minx) && decide (o.minx ≤ s.maxx)) &&
  (decide (s.minx ≤ o.maxx) && decide (o.maxx ≤ s.maxx)) &&
  (decide (s.miny ≤ o.miny) && decide (o.miny ≤ s.maxy)) &&
  (decide (s.miny ≤ o.maxy) && decide (o.maxy ≤ s.maxy)) &&
  (decide (s.mint ≤ o.mint) && decide (o.mint ≤ s.maxt)) &&
  (decide (s.mint ≤ o.maxt) && decide (o.maxt ≤ s.maxt))

/-- Model of `BoundingBox.__or__` (union): componentwise min of minima and max
of maxima, passed through the validating constructor. -/
def BoundingBox.union (s o : BoundingBox) : Option BoundingBox :=
  BoundingBox.mk? (min s.minx o.minx) (max s.maxx o.maxx)
    (min s.miny o.miny) (max s.maxy o.maxy)
    (min s.mint o.mint) (max s.maxt o.maxt)

/-- Model of `BoundingBox.__and__` (intersection): componentwise max of minima
and min of maxima; the Python code re-raises the constructor's `ValueError`
as a no-overlap error, so failure is `none` here. -/
def BoundingBox.inter (s o : BoundingBox) : Option BoundingBox :=
  BoundingBox.mk? (max s.minx o.minx) (min s.maxx o.maxx)
    (max s.miny o.miny) (min s.maxy o.maxy)
    (max s.mint o.mint) (min s.maxt o.maxt)

/-- Model of `BoundingBox.intersects`: the six inclusive comparisons of the
source. -/
def BoundingBox.intersects (s o : BoundingBox) : Bool :=
  decide (s.minx ≤ o.maxx) && decide (s.maxx ≥ o.minx) &&
  decide (s.miny ≤ o.maxy) && decide (s.maxy ≥ o.miny) &&
  decide (s.mint ≤ o.maxt) && decide (s.maxt ≥ o.mint)

/-- Model of `BoundingBox.split`: raises (returns `none`) unless
`0 < proportion < 1`; splits along x when `horizontal` else along y at
`min + (max - min) * proportion`; the two halves are built with the
validating constructor. -/
def BoundingBox.split (b : BoundingBox) (proportion : ℚ) (horizontal : Bool) :
    Option (BoundingBox × BoundingBox) :=
  if ¬ (0 < proportion ∧ proportion < 1) then none
  else if horizontal then
    let w := b.maxx - b.minx
    let splitx := b.minx + w * proportion
    do
      let bbox1 ← BoundingBox.mk? b.minx splitx b.miny b.maxy b.mint b.maxt
      let bbox2 ← BoundingBox.mk? splitx b.maxx b.miny b.maxy b.mint b.maxt
      pure (bbox1, bbox2)
  else
    let h := b.maxy - b.miny
    let splity := b.miny + h * proportion
    do
      let bbox1 ← BoundingBox.mk? b.minx b.maxx b.miny splity b.mint b.maxt
      let bbox2 ← BoundingBox.mk? b.minx b.maxx splity b.maxy b.mint b.maxt
      pure (bbox1, bbox2)

/-- Model of `subprocess.CompletedProcess` (only the fields the claims
need). -/
structure CompletedProcess where
  args : List String
  returncode : ℤ
deriving DecidableEq, Repr

/-- Model of `subprocess.run`: the external process is abstracted by
`exitCode`, which gives the exit status for an argument vector.  With
`check = true` a nonzero exit status raises `CalledProcessError`
(modelled as `Except.error` carrying the status). -/
def subprocess_run (exitCode : List String → ℤ) (args : List String)
    (check : Bool) : Except ℤ CompletedProcess :=
  let rc := exitCode args
  if check ∧ rc ≠ 0 then Except.error rc else Except.ok ⟨args, rc⟩

/-- Model of the `Executable` class: a command name. -/
structure Executable where
  name : String
deriving DecidableEq, Repr

/-- Model of `Executable.__call__`: the caller may pass a `check` keyword
argument (`checkKwarg`), but the source overwrites it with
`kwargs['check'] = True` before calling `subprocess.run`. -/
def Executable.call (exitCode : List String → ℤ) (e : Executable)
    (args : List String) (checkKwarg : Option Bool) : Except ℤ CompletedProcess :=
  let _ := checkKwarg
  let kwargsCheck := true
  subprocess_run exitCode (e.name :: args) kwargsCheck

/-- C1: for valid boxes `A`, `B`, the union exists and contains both
operands, and whenever the intersection succeeds the resulting box is
contained in both `A` and `B`. -/
theorem c1_union_inter_containment (A B : BoundingBox)
    (hA : A.Valid) (hB : B.Valid) :
    (∃ U, A.union B = some U ∧ U.contains A = true ∧ U.contains B = true) ∧
    (∀ I, A.inter B = some I → A.contains I = true ∧ B.contains I = true) := by
  obtain ⟨hAx, hAy, hAt⟩ := hA
  obtain ⟨hBx, hBy, hBt⟩ := hB
  constructor
  · refine ⟨⟨min A.minx B.minx, max A.maxx B.maxx, min A.miny B.miny,
      max A.maxy B.maxy, min A.mint B.mint, max A.maxt B.maxt⟩, ?_, ?_, ?_⟩
    · simp only [BoundingBox.union, BoundingBox.mk?]
      have h1 : ¬ min A.minx B.minx > max A.maxx B.maxx := by
        simp only [not_lt]
        exact le_trans (min_le_left _ _) (le_trans hAx (le_max_left _ _))
      have h2 : ¬ min A.miny B.miny > max A.maxy B.maxy := by
        simp only [not_lt]
        exact le_trans (min_le_left _ _) (le_trans hAy (le_max_left _ _))
      have h3 : ¬ min A.mint B.mint > max A.maxt B.maxt := by
        simp only [not_lt]
        exact le_trans (min_le_left _ _) (le_trans hAt (le_max_left _ _))
      rw [if_neg h1, if_neg h2, if_neg h3]
    · simp only [BoundingBox.contains, Bool.and_eq_true, decide_eq_true_eq]
      refine ⟨⟨⟨⟨⟨⟨?_, ?_⟩, ?_, ?_⟩, ?_, ?_⟩, ?_, ?_⟩, ?_, ?_⟩, ?_, ?_⟩
      · exact min_le_left _ _
      · exact le_trans hAx (le_max_left _ _)
      · exact le_trans (min_le_left _ _) hAx
      · exact le_max_left _ _
      · exact min_le_left _ _
      · exact le_trans hAy (le_max_left _ _)
      · exact le_trans (min_le_left _ _) hAy
      · exact le_max_left _ _
      · exact min_le_left _ _
      · exact le_trans hAt (le_max_left _ _)
      · exact le_trans (min_le_left _ _) hAt
      · exact le_max_left _ _
    · simp only [BoundingBox.contains, Bool.and_eq_true, decide_eq_true_eq]
      refine ⟨⟨⟨⟨⟨⟨?_, ?_⟩, ?_, ?_⟩, ?_, ?_⟩, ?_, ?_⟩, ?_, ?_⟩, ?_, ?_⟩
      · exact min_le_right _ _
      · exact le_trans hBx (le_max_right _ _)
      · exact le_trans (min_le_right _ _) hBx
      · exact le_max_right _ _
      · exact min_le_right _ _
      · exact le_trans hBy (le_max_right _ _)
      · exact le_trans (min_le_right _ _) hBy
      · exact le_max_right _ _
      · exact min_le_right _ _
      · exact le_trans hBt (le_max_right _ _)
      · exact le_trans (min_le_right _ _) hBt
      · exact le_max_right _ _
  · intro I hI
    simp only [BoundingBox.inter, BoundingBox.mk?] at hI
    split_ifs at hI with h1 h2 h3
    simp only [not_lt] at h1 h2 h3
    obtain rfl : I = ⟨max A.minx B.minx, min A.maxx B.maxx, max A.miny B.miny,
        min A.maxy B.maxy, max A.mint B.mint, min A.maxt B.maxt⟩ :=
      (Option.some_inj.mp hI).symm
    constructor
    · simp only [BoundingBox.contains, Bool.and_eq_true, decide_eq_true_eq]
      refine ⟨⟨⟨⟨⟨⟨?_, ?_⟩, ?_, ?_⟩, ?_, ?_⟩, ?_, ?_⟩, ?_, ?_⟩, ?_, ?_⟩
      · exact le_max_left _ _
      · exact le_trans h1 (min_le_left _ _)
      · exact le_trans (le_max_left _ _) h1
      · exact min_le_left _ _
      · exact le_max_left _ _
      · exact le_trans h2 (min_le_left _ _)
      · exact le_trans (le_max_left _ _) h2
      · exact min_le_left _ _
      · exact le_max_left _ _
      · exact le_trans h3 (min_le_left _ _)
      · exact le_trans (le_max_left _ _) h3
      · exact min_le_left _ _
    · simp only [BoundingBox.contains, Bool.and_eq_true, decide_eq_true_eq]
      refine ⟨⟨⟨⟨⟨⟨?_, ?_⟩, ?_, ?_⟩, ?_, ?_⟩, ?_, ?_⟩, ?_, ?_⟩, ?_, ?_⟩
      · exact le_max_right _ _
      · exact le_trans h1 (min_le_right _ _)
      · exact le_trans (le_max_right _ _) h1
      · exact min_le_right _ _
      · exact le_max_right _ _
      · exact le_trans h2 (min_le_right _ _)
      · exact le_trans (le_max_right _ _) h2
      · exact min_le_right _ _
      · exact le_max_right _ _
      · exact le_trans h3 (min_le_right _ _)
      · exact le_trans (le_max_right _ _) h3
      · exact min_le_right _ _

/-- Witness for C1 at concrete boxes. -/
theorem c1_union_inter_containment_witness :
    (∃ U, BoundingBox.union ⟨0, 2, 0, 2, 0, 1⟩ ⟨1, 3, 1, 3, 0, 2⟩ = some U ∧
      U.contains ⟨0, 2, 0, 2, 0, 1⟩ = true ∧ U.contains ⟨1, 3, 1, 3, 0, 2⟩ = true) ∧
    (∀ I, BoundingBox.inter ⟨0, 2, 0, 2, 0, 1⟩ ⟨1, 3, 1, 3, 0, 2⟩ = some I →
      BoundingBox.contains ⟨0, 2, 0, 2, 0, 1⟩ I = true ∧
      BoundingBox.contains ⟨1, 3, 1, 3, 0, 2⟩ I = true) :=
  c1_union_inter_containment ⟨0, 2, 0, 2, 0, 1⟩ ⟨1, 3, 1, 3, 0, 2⟩
    (by decide) (by decide)

/-- C2: for a valid box `A` and `0 < p < 1`, `split` succeeds and returns two
boxes that partition `A` on the split axis at `min + (max - min) * p`, agree
with `A` on every other axis, and whose union is exactly `A`.  Both the
horizontal (x-axis) and vertical (y-axis) variants are covered; the split is
a pure function of `A`, which is unchanged by construction. -/
theorem c2_split_partition (A : BoundingBox) (hA : A.Valid)
    (p : ℚ) (h0 : 0 < p) (h1 : p < 1) :
    (A.split p true =
        some (⟨A.minx, A.minx + (A.maxx - A.minx) * p, A.miny, A.maxy, A.mint, A.maxt⟩,
              ⟨A.minx + (A.maxx - A.minx) * p, A.maxx, A.miny, A.maxy, A.mint, A.maxt⟩) ∧
      BoundingBox.union
        ⟨A.minx, A.minx + (A.maxx - A.minx) * p, A.miny, A.maxy, A.mint, A.maxt⟩
        ⟨A.minx + (A.maxx - A.minx) * p, A.maxx, A.miny, A.maxy, A.mint, A.maxt⟩ =
        some A) ∧
    (A.split p false =
        some (⟨A.minx, A.maxx, A.miny, A.miny + (A.maxy - A.miny) * p, A.mint, A.maxt⟩,
              ⟨A.minx, A.maxx, A.miny + (A.maxy - A.miny) * p, A.maxy, A.mint, A.maxt⟩) ∧
      BoundingBox.union
        ⟨A.minx, A.maxx, A.miny, A.miny + (A.maxy - A.miny) * p, A.mint, A.maxt⟩
        ⟨A.minx, A.maxx, A.miny + (A.maxy - A.miny) * p, A.maxy, A.mint, A.maxt⟩ =
        some A) := by
  obtain ⟨hAx, hAy, hAt⟩ := hA
  have hxlo : A.minx ≤ A.minx + (A.maxx - A.minx) * p := by nlinarith
  have hxhi : A.minx + (A.maxx - A.minx) * p ≤ A.maxx := by nlinarith
  have hylo : A.miny ≤ A.miny + (A.maxy - A.miny) * p := by nlinarith
  have hyhi : A.miny + (A.maxy - A.miny) * p ≤ A.maxy := by nlinarith
  have e1 : BoundingBox.mk? A.minx (A.minx + (A.maxx - A.minx) * p)
      A.miny A.maxy A.mint A.maxt =
      some ⟨A.minx, A.minx + (A.maxx - A.minx) * p, A.miny, A.maxy, A.mint, A.maxt⟩ := by
    unfold BoundingBox.mk?
    rw [if_neg (not_lt.mpr hxlo), if_neg (not_lt.mpr hAy), if_neg (not_lt.mpr hAt)]
  have e2 : BoundingBox.mk? (A.minx + (A.maxx - A.minx) * p) A.maxx
      A.miny A.maxy A.mint A.maxt =
      some ⟨A.minx + (A.maxx - A.minx) * p, A.maxx, A.miny, A.maxy, A.mint, A.maxt⟩ := by
    unfold BoundingBox.mk?
    rw [if_neg (not_lt.mpr hxhi), if_neg (not_lt.mpr hAy), if_neg (not_lt.mpr hAt)]
  have e3 : BoundingBox.mk? A.minx A.maxx
      A.miny (A.miny + (A.maxy - A.miny) * p) A.mint A.maxt =
      some ⟨A.minx, A.maxx, A.miny, A.miny + (A.maxy - A.miny) * p, A.mint, A.maxt⟩ := by
    unfold BoundingBox.mk?
    rw [if_neg (not_lt.mpr hAx), if_neg (not_lt.mpr hylo), if_neg (not_lt.mpr hAt)]
  have e4 : BoundingBox.mk? A.minx A.maxx
      (A.miny + (A.maxy - A.miny) * p) A.maxy A.mint A.maxt =
      some ⟨A.minx, A.maxx, A.miny + (A.maxy - A.miny) * p, A.maxy, A.mint, A.maxt⟩ := by
    unfold BoundingBox.mk?
    rw [if_neg (not_lt.mpr hAx), if_neg (not_lt.mpr hyhi), if_neg (not_lt.mpr hAt)]
  constructor
  · constructor
    · have step : A.split p true =
          (BoundingBox.mk? A.minx (A.minx + (A.maxx - A.minx) * p)
            A.miny A.maxy A.mint A.maxt).bind (fun bbox1 =>
          (BoundingBox.mk? (A.minx + (A.maxx - A.minx) * p) A.maxx
            A.miny A.maxy A.mint A.maxt).bind (fun bbox2 =>
          pure (bbox1, bbox2))) := by
        unfold BoundingBox.split
        rw [if_neg (not_not_intro ⟨h0, h1⟩)]
        rfl
      rw [step, e1, e2]
      rfl
    · simp only [BoundingBox.union, BoundingBox.mk?]
      rw [min_eq_left hxlo, max_eq_right hxhi, min_self, max_self, min_self, max_self]
      rw [if_neg (not_lt.mpr hAx), if_neg (not_lt.mpr hAy), if_neg (not_lt.mpr hAt)]
  · constructor
    · have step : A.split p false =
          (BoundingBox.mk? A.minx A.maxx
            A.miny (A.miny + (A.maxy - A.miny) * p) A.mint A.maxt).bind (fun bbox1 =>
          (BoundingBox.mk? A.minx A.maxx
            (A.miny + (A.maxy - A.miny) * p) A.maxy A.mint A.maxt).bind (fun bbox2 =>
          pure (bbox1, bbox2))) := by
        unfold BoundingBox.split
        rw [if_neg (not_not_intro ⟨h0, h1⟩)]
        rfl
      rw [step, e3, e4]
      rfl
    · simp only [BoundingBox.union, BoundingBox.mk?]
      rw [min_self, max_self, min_eq_left hylo, max_eq_right hyhi, min_self, max_self]
      rw [if_neg (not_lt.mpr hAx), if_neg (not_lt.mpr hAy), if_neg (not_lt.mpr hAt)]

/-- Witness for C2 at `A = (0,4)×(0,2)×(0,1)` and `p = 1/4`. -/
theorem c2_split_partition_witness :
    (BoundingBox.split ⟨0, 4, 0, 2, 0, 1⟩ (1/4) true =
        some (⟨0, 0 + (4 - 0) * (1/4), 0, 2, 0, 1⟩,
              ⟨0 + (4 - 0) * (1/4), 4, 0, 2, 0, 1⟩) ∧
      BoundingBox.union ⟨0, 0 + (4 - 0) * (1/4), 0, 2, 0, 1⟩
        ⟨0 + (4 - 0) * (1/4), 4, 0, 2, 0, 1⟩ = some ⟨0, 4, 0, 2, 0, 1⟩) ∧
    (BoundingBox.split ⟨0, 4, 0, 2, 0, 1⟩ (1/4) false =
        some (⟨0, 4, 0, 0 + (2 - 0) * (1/4), 0, 1⟩,
              ⟨0, 4, 0 + (2 - 0) * (1/4), 2, 0, 1⟩) ∧
      BoundingBox.union ⟨0, 4, 0, 0 + (2 - 0) * (1/4), 0, 1⟩
        ⟨0, 4, 0 + (2 - 0) * (1/4), 2, 0, 1⟩ = some ⟨0, 4, 0, 2, 0, 1⟩) :=
  c2_split_partition ⟨0, 4, 0, 2, 0, 1⟩ (by decide) (1/4) (by norm_num) (by norm_num)

/-- C3: for valid boxes, `intersects` is true exactly when `inter`
(`__and__`) succeeds; the comparisons are inclusive, so merely touching
boxes count as intersecting. -/
theorem c3_intersects_iff_inter_succeeds (A B : BoundingBox)
    (hA : A.Valid) (hB : B.Valid) :
    A.intersects B = (A.inter B).isSome := by
  obtain ⟨hAx, hAy, hAt⟩ := hA
  obtain ⟨hBx, hBy, hBt⟩ := hB
  have succ : (A.inter B).isSome = true ↔
      max A.minx B.minx ≤ min A.maxx B.maxx ∧
      max A.miny B.miny ≤ min A.maxy B.maxy ∧
      max A.mint B.mint ≤ min A.maxt B.maxt := by
    unfold BoundingBox.inter BoundingBox.mk?
    split_ifs with gx gy gt'
    · simp only [Option.isSome_none, Bool.false_eq_true, false_iff]
      intro hc
      exact absurd hc.1 (not_le.mpr gx)
    · simp only [Option.isSome_none, Bool.false_eq_true, false_iff]
      intro hc
      exact absurd hc.2.1 (not_le.mpr gy)
    · simp only [Option.isSome_none, Bool.false_eq_true, false_iff]
      intro hc
      exact absurd hc.2.2 (not_le.mpr gt')
    · simp only [Option.isSome_some, true_iff]
      exact ⟨not_lt.mp gx, not_lt.mp gy, not_lt.mp gt'⟩
  rw [Bool.eq_iff_iff, succ]
  simp only [BoundingBox.intersects, Bool.and_eq_true, decide_eq_true_eq, ge_iff_le]
  constructor
  · rintro ⟨⟨⟨⟨⟨hx1, hx2⟩, hy1⟩, hy2⟩, ht1⟩, ht2⟩
    exact ⟨max_le (le_min hAx hx1) (le_min hx2 hBx),
      max_le (le_min hAy hy1) (le_min hy2 hBy),
      max_le (le_min hAt ht1) (le_min ht2 hBt)⟩
  · rintro ⟨gx, gy, gt'⟩
    refine ⟨⟨⟨⟨⟨?_, ?_⟩, ?_⟩, ?_⟩, ?_⟩, ?_⟩
    · exact le_trans (le_trans (le_max_left _ _) gx) (min_le_right _ _)
    · exact le_trans (le_trans (le_max_right _ _) gx) (min_le_left _ _)
    · exact le_trans (le_trans (le_max_left _ _) gy) (min_le_right _ _)
    · exact le_trans (le_trans (le_max_right _ _) gy) (min_le_left _ _)
    · exact le_trans (le_trans (le_max_left _ _) gt') (min_le_right _ _)
    · exact le_trans (le_trans (le_max_right _ _) gt') (min_le_left _ _)

/-- Witness for C3 at two boxes that merely touch at `x = 1`: they count as
intersecting and `inter` succeeds. -/
theorem c3_intersects_iff_inter_succeeds_witness :
    BoundingBox.intersects ⟨0, 1, 0, 1, 0, 1⟩ ⟨1, 2, 0, 1, 0, 1⟩ =
      (BoundingBox.inter ⟨0, 1, 0, 1, 0, 1⟩ ⟨1, 2, 0, 1, 0, 1⟩).isSome ∧
    BoundingBox.intersects ⟨0, 1, 0, 1, 0, 1⟩ ⟨1, 2, 0, 1, 0, 1⟩ = true :=
  ⟨c3_intersects_iff_inter_succeeds ⟨0, 1, 0, 1, 0, 1⟩ ⟨1, 2, 0, 1, 0, 1⟩
    (by decide) (by decide), by decide⟩

/-- Counterexample for C9: the claim says every integer index outside `0..5`
fails with `IndexError`, but the source indexes a Python list, for which the
negative in-range index `-1` succeeds and returns `maxt`. -/
theorem c9_getitem_counterexample :
    BoundingBox.getitem ⟨0, 1, 2, 3, 4, 5⟩ (-1) = some 5 ∧
    BoundingBox.getitem ⟨0, 1, 2, 3, 4, 5⟩ (-1) ≠ none := by
  constructor
  · rfl
  · intro h
    rw [show BoundingBox.getitem ⟨0, 1, 2, 3, 4, 5⟩ (-1) = some 5 from rfl] at h
    exact Option.noConfusion h

/-- C9 (amended): indices `0..5` return the i-th bound in the fixed order;
indices below `-6` or at/above `6` fail with `IndexError`; and negative
indices `-6..-1` succeed, returning the same bound as `index + 6`
(Python list semantics). -/
theorem c9_getitem_amended (b : BoundingBox) (i : ℤ) :
    (0 ≤ i → i < 6 → b.getitem i = some (b.boundsList.getD i.toNat 0)) ∧
    ((i < -6 ∨ 6 ≤ i) → b.getitem i = none) ∧
    (-6 ≤ i → i < 0 → b.getitem i = b.getitem (i + 6)) := by
  refine ⟨?_, ?_, ?_⟩
  · intro h0 h6
    unfold BoundingBox.getitem
    rw [if_pos ⟨h0, h6⟩]
  · intro h
    unfold BoundingBox.getitem
    rw [if_neg (by omega), if_neg (by omega)]
  · intro hm h0
    unfold BoundingBox.getitem
    rw [if_neg (by omega), if_pos (show -6 ≤ i ∧ i < 0 by omega),
      if_pos (show 0 ≤ i + 6 ∧ i + 6 < 6 by omega)]

/-- Witness for C9 (amended) at concrete indices 2, 7 and -2. -/
theorem c9_getitem_amended_witness :
    BoundingBox.getitem ⟨0, 1, 2, 3, 4, 5⟩ 2 =
      some ((BoundingBox.boundsList ⟨0, 1, 2, 3, 4, 5⟩).getD (2 : ℤ).toNat 0) ∧
    BoundingBox.getitem ⟨0, 1, 2, 3, 4, 5⟩ 7 = none ∧
    BoundingBox.getitem ⟨0, 1, 2, 3, 4, 5⟩ (-2) =
      BoundingBox.getitem ⟨0, 1, 2, 3, 4, 5⟩ (-2 + 6) :=
  ⟨(c9_getitem_amended ⟨0, 1, 2, 3, 4, 5⟩ 2).1 (by decide) (by decide),
   (c9_getitem_amended ⟨0, 1, 2, 3, 4, 5⟩ 7).2.1 (Or.inr (by decide)),
   (c9_getitem_amended ⟨0, 1, 2, 3, 4, 5⟩ (-2)).2.2 (by decide) (by decide)⟩

/-- C10: `Executable.__call__` forces `check=True`, overriding any
caller-supplied value, so the call is independent of the caller's `check`
keyword, a completed process is returned only when the exit status is zero,
and a nonzero exit status raises `CalledProcessError`. -/
theorem c10_check_forced (exitCode : List String → ℤ) (e : Executable)
    (args : List String) (k1 k2 : Option Bool) :
    Executable.call exitCode e args k1 = Executable.call exitCode e args k2 ∧
    Executable.call exitCode e args k1 = subprocess_run exitCode (e.name :: args) true ∧
    (∀ cp, Executable.call exitCode e args k1 = Except.ok cp →
      exitCode (e.name :: args) = 0 ∧ cp.returncode = 0) ∧
    (exitCode (e.name :: args) ≠ 0 →
      Executable.call exitCode e args k1 = Except.error (exitCode (e.name :: args))) := by
  have hcall : Executable.call exitCode e args k1 =
      if (true = true) ∧ exitCode (e.name :: args) ≠ 0
      then Except.error (exitCode (e.name :: args))
      else Except.ok ⟨e.name :: args, exitCode (e.name :: args)⟩ := rfl
  refine ⟨rfl, rfl, ?_, ?_⟩
  · intro cp h
    rw [hcall] at h
    by_cases hrc : exitCode (e.name :: args) = 0
    · rw [if_neg (fun hc => hc.2 hrc)] at h
      obtain rfl := Except.ok.inj h
      exact ⟨hrc, hrc⟩
    · rw [if_pos ⟨rfl, hrc⟩] at h
      exact Except.noConfusion h
  · intro hne
    rw [hcall, if_pos ⟨rfl, hne⟩]

/-- Witness for C10 with an exit-code oracle that always fails (status 1). -/
theorem c10_check_forced_witness :
    Executable.call (fun _ => (1 : ℤ)) ⟨"gdalinfo"⟩ ["--version"] (some false) =
      Except.error ((fun _ => (1 : ℤ)) ("gdalinfo" :: ["--version"])) ∧
    (∀ cp, Executable.call (fun _ => (1 : ℤ)) ⟨"gdalinfo"⟩ ["--version"] (some false) =
      Except.ok cp → (fun _ => (1 : ℤ)) ("gdalinfo" :: ["--version"]) = 0 ∧
      cp.returncode = 0) :=
  ⟨(c10_check_forced (fun _ => (1 : ℤ)) ⟨"gdalinfo"⟩ ["--version"] (some false)
      (some true)).2.2.2 (by decide),
   (c10_check_forced (fun _ => (1 : ℤ)) ⟨"gdalinfo"⟩ ["--version"] (some false)
      (some true)).2.2.1⟩

/-- Whether `needle` is an initial segment of `hay` (character lists). -/
def charsIsInit (needle hay : List Char) : Bool :=
  match needle, hay with
  | [], _ => true
  | _ :: _, [] => false
  | a :: as, b :: bs => a == b && charsIsInit as bs

/-- Model of Python's substring test `needle in hay` on character lists. -/
def charsHasSub (needle : List Char) : List Char → Bool
  | [] => charsIsInit needle []
  | c :: rest => charsIsInit needle (c :: rest) || charsHasSub needle rest

/-- Model of Python's substring test `needle in hay` on strings. -/
def strContainsSub (needle hay : String) : Bool :=
  charsHasSub needle.toList hay.toList

/-- Model of `format.replace('%%', '')`: remove non-overlapping occurrences
of `%%`, scanning left to right. -/
def removeDoublePercent : List Char → List Char
  | '%' :: '%' :: rest => removeDoublePercent rest
  | c :: rest => c :: removeDoublePercent rest
  | [] => []

/-- A naive calendar timestamp, as produced by `datetime.strptime`:
year, month, day, hour, minute, second, microsecond. -/
structure DateTime where
  year : ℕ
  month : ℕ
  day : ℕ
  hour : ℕ
  minute : ℕ
  second : ℕ
  micro : ℕ
deriving DecidableEq, Repr

def digitVal (c : Char) : ℕ := c.toNat - 48

/-- Read exactly `n` decimal digits from the front of `cs`. -/
def parseDigitsExact : ℕ → List Char → ℕ → Option (ℕ × List Char)
  | 0, cs, acc => some (acc, cs)
  | n + 1, c :: rest, acc =>
      if c.isDigit then parseDigitsExact n rest (acc * 10 + digitVal c) else none
  | _ + 1, [], _ => none

/-- Model of the `%m` directive of `datetime.strptime` (regex
`1[0-2]|0[1-9]|[1-9]`): two digits forming 1..12 if possible, else one
digit 1..9. -/
def parseMonth (cs : List Char) : Option (ℕ × List Char) :=
  match cs with
  | a :: b :: rest =>
    if a.isDigit && b.isDigit && decide (1 ≤ 10 * digitVal a + digitVal b) &&
        decide (10 * digitVal a + digitVal b ≤ 12) then
      some (10 * digitVal a + digitVal b, rest)
    else if a.isDigit && decide (1 ≤ digitVal a) && decide (digitVal a ≤ 9) then
      some (digitVal a, b :: rest)
    else none
  | [a] =>
    if a.isDigit && decide (1 ≤ digitVal a) && decide (digitVal a ≤ 9) then
      some (digitVal a, [])
    else none
  | [] => none

/-- Modelled from the spec and the Python standard library: the external
`datetime.strptime`, restricted to the directives exercised by the claims
(`%Y`, four digits of year, and `%m`, a month 1..12) plus literal
characters; any other directive is outside the model.  Unparsed text or a
mismatch raises `ValueError`, modelled as `none`.  Defaults are Python's:
1900-01-01 00:00:00. -/
def strptimeAux : List Char → List Char → DateTime → Option DateTime
  | [], [], dt => some dt
  | [], _ :: _, _ => none
  | '%' :: 'Y' :: fmtRest, cs, dt =>
      match parseDigitsExact 4 cs 0 with
      | some (y, rest) => strptimeAux fmtRest rest { dt with year := y }
      | none => none
  | '%' :: 'm' :: fmtRest, cs, dt =>
      match parseMonth cs with
      | some (m, rest) => strptimeAux fmtRest rest { dt with month := m }
      | none => none
  | '%' :: _ :: _, _, _ => none
  | _ :: _, [], _ => none
  | c :: fmtRest, c' :: csRest, dt =>
      if c = c' then strptimeAux fmtRest csRest dt else none

def strptime (date_str format : String) : Option DateTime :=
  strptimeAux format.toList date_str.toList ⟨1900, 1, 1, 0, 0, 0, 0⟩

/-- Proleptic-Gregorian leap year test. -/
def isLeap (y : ℕ) : Bool := (y % 4 == 0 && y % 100 != 0) || y % 400 == 0

/-- Days in the calendar year before the first day of month `m`. -/
def daysBeforeMonth (y m : ℕ) : ℕ :=
  let base := [0, 31, 59, 90, 120, 151, 181, 212, 243, 273, 304, 334].getD (m - 1) 0
  if 3 ≤ m ∧ isLeap y then base + 1 else base

/-- Days before January 1 of year `y` in the proleptic Gregorian calendar
(the ordinal of `y`-01-01 is `daysBeforeYear y + 1`, as in
`datetime.toordinal`). -/
def daysBeforeYear (y : ℕ) : ℤ :=
  365 * ((y : ℤ) - 1) + ((y : ℤ) - 1) / 4 - ((y : ℤ) - 1) / 100 + ((y : ℤ) - 1) / 400

def toOrdinal (dt : DateTime) : ℤ :=
  daysBeforeYear dt.year + daysBeforeMonth dt.year dt.month + dt.day

/-- Microseconds since the Unix epoch of a naive datetime interpreted in
UTC (the ordinal of 1970-01-01 is 719163).  `timedelta` arithmetic on
naive datetimes corresponds to ordinary arithmetic on this value. -/
def timestampMicro (dt : DateTime) : ℤ :=
  (toOrdinal dt - 719163) * 86400000000 + (dt.hour : ℤ) * 3600000000 +
    (dt.minute : ℤ) * 60000000 + (dt.second : ℤ) * 1000000 + (dt.micro : ℤ)

/-- Model of `datetime.timestamp()`: epoch seconds as an exact rational
(the code's TODO notes it ignores time zones; the claims are stated in
UTC). -/
def pyTimestamp (dt : DateTime) : ℚ :=
  (timestampMicro dt : ℚ) / 1000000

/-- Model of `any([f'%{c}' in format for c in chars])`. -/
def fmtHasDirective (fmt : List Char) (cs : List Char) : Bool :=
  cs.any (fun c => charsHasSub ['%', c] fmt)

def sysMaxsize : ℤ := 9223372036854775807

/-- Model of `disambiguate_timestamp`: parse `date_str` with `format`, then
inspect which precision-indicating directives occur in the format (after
removing `%%`), compute `maxt` at the next coarser boundary, and subtract
one microsecond.  The Python `datetime` values are represented by their
epoch-microsecond timestamps, so `maxt -= timedelta(microseconds=1)`
becomes subtraction of 1. -/
def disambiguate_timestamp (date_str format : String) : Option (ℚ × ℚ) :=
  (strptime date_str format).bind fun mint =>
    let fmt := removeDoublePercent format.toList
    if !(fmtHasDirective fmt ['y', 'Y', 'c', 'x', 'G']) then
      some (0, (sysMaxsize : ℚ))
    else
      let maxtMicro : ℤ :=
        if !(fmtHasDirective fmt ['b', 'B', 'm', 'j', 'U', 'W', 'c', 'x', 'V']) then
          timestampMicro ⟨mint.year + 1, 1, 1, 0, 0, 0, 0⟩
        else if !(fmtHasDirective fmt ['a', 'A', 'w', 'd', 'j', 'c', 'x', 'V']) then
          if mint.month = 12 then timestampMicro ⟨mint.year + 1, 1, 1, 0, 0, 0, 0⟩
          else timestampMicro ⟨mint.year, mint.month + 1, 1, 0, 0, 0, 0⟩
        else if !(fmtHasDirective fmt ['H', 'I', 'c', 'X']) then
          timestampMicro mint + 86400000000
        else if !(fmtHasDirective fmt ['M', 'c', 'X']) then
          timestampMicro mint + 3600000000
        else if !(fmtHasDirective fmt ['S', 'c', 'X']) then
          timestampMicro mint + 60000000
        else if !(fmtHasDirective fmt ['f']) then
          timestampMicro mint + 1000000
        else
          timestampMicro mint + 1
      some (pyTimestamp mint, ((maxtMicro - 1 : ℤ) : ℚ) / 1000000)

/-- C4: `disambiguate_timestamp "2020" "%Y"` spans exactly 2020-01-01T00:00:00
through 2020-12-31T23:59:59.999999 in epoch seconds, and
`disambiguate_timestamp "2020-12" "%Y-%m"` ends at the same last microsecond
of December 2020 (month resolution with year rollover), starting at
2020-12-01T00:00:00. -/
theorem c4_disambiguate_timestamp :
    disambiguate_timestamp "2020" "%Y" =
      some (1577836800, 1609459200 - 1 / 1000000) ∧
    disambiguate_timestamp "2020-12" "%Y-%m" =
      some (1606780800, 1609459200 - 1 / 1000000) := by
  have hs1 : strptime "2020" "%Y" = some ⟨2020, 1, 1, 0, 0, 0, 0⟩ := by decide
  have hs2 : strptime "2020-12" "%Y-%m" = some ⟨2020, 12, 1, 0, 0, 0, 0⟩ := by decide
  have ht1 : timestampMicro ⟨2020, 1, 1, 0, 0, 0, 0⟩ = 1577836800000000 := by decide
  have ht2 : timestampMicro ⟨2020 + 1, 1, 1, 0, 0, 0, 0⟩ = 1609459200000000 := by decide
  have ht3 : timestampMicro ⟨2020, 12, 1, 0, 0, 0, 0⟩ = 1606780800000000 := by decide
  have hd1 : fmtHasDirective (removeDoublePercent "%Y".toList)
      ['y', 'Y', 'c', 'x', 'G'] = true := by decide
  have hd2 : fmtHasDirective (removeDoublePercent "%Y".toList)
      ['b', 'B', 'm', 'j', 'U', 'W', 'c', 'x', 'V'] = false := by decide
  have hd3 : fmtHasDirective (removeDoublePercent "%Y-%m".toList)
      ['y', 'Y', 'c', 'x', 'G'] = true := by decide
  have hd4 : fmtHasDirective (removeDoublePercent "%Y-%m".toList)
      ['b', 'B', 'm', 'j', 'U', 'W', 'c', 'x', 'V'] = true := by decide
  have hd5 : fmtHasDirective (removeDoublePercent "%Y-%m".toList)
      ['a', 'A', 'w', 'd', 'j', 'c', 'x', 'V'] = false := by decide
  constructor
  · simp only [disambiguate_timestamp, hs1, Option.some_bind, hd1, hd2,
      Bool.not_true, Bool.not_false, if_true, if_false, pyTimestamp, ht1, ht2]
    norm_num
  · simp only [disambiguate_timestamp, hs2, Option.some_bind, hd3, hd4, hd5,
      Bool.not_true, Bool.not_false, if_true, if_false, pyTimestamp, ht1, ht3, ht2]
    norm_num

/-- Model of `path_is_gdal_vsi`: pure string test for a `://` scheme
separator or a `/vsi` prefix. -/
def path_is_gdal_vsi (path : String) : Bool :=
  strContainsSub "://" path || charsIsInit "/vsi".toList path.toList

/-- Result of one `fiona.listdir` call: either the entries of a directory or
a `FionaValueError` carrying its message. -/
inductive FionaResult where
  | ok (entries : List String)
  | err (msg : String)
deriving DecidableEq, Repr

/-- Model of the `while dirs:` loop of `listdir_vfs_recursive`.  The Python
list is used as a stack: `dirs.pop()` removes the last element and
`dirs.extend` appends at the end.  The external `fiona.listdir` is the
driver `D`.  A `FionaValueError` whose message contains
`'is not a directory'` records the path as a file leaf; any other
`FionaValueError` is re-raised (`Except.error`).  `fuel` bounds the number
of iterations; `none` means the bound was exhausted. -/
def listdirVfsAux (D : String → FionaResult) (fuel : ℕ)
    (dirs files : List String) : Option (Except String (List String)) :=
  match dirs.getLast? with
  | none => some (Except.ok files)
  | some dir =>
    match fuel with
    | 0 => none
    | fuel' + 1 =>
      match D dir with
      | FionaResult.ok subdirs =>
          listdirVfsAux D fuel'
            (dirs.dropLast ++ subdirs.map (fun s => dir ++ "/" ++ s)) files
      | FionaResult.err e =>
          if strContainsSub "is not a directory" e then
            listdirVfsAux D fuel' dirs.dropLast (files ++ [dir])
          else
            some (Except.error e)

/-- Model of `listdir_vfs_recursive root`. -/
def listdir_vfs_recursive (D : String → FionaResult) (fuel : ℕ)
    (root : String) : Option (Except String (List String)) :=
  listdirVfsAux D fuel [root] []

/-- Model of `fnmatch.fnmatch` on POSIX for patterns built from `*`, `?` and
literal characters (the subset the repository uses; `*` also matches `/`,
as in `fnmatch`). -/
def fnmatchOne : List Char → List Char → Bool
  | [], [] => true
  | [], _ :: _ => false
  | '*' :: ps, [] => fnmatchOne ps []
  | '*' :: ps, c :: s => fnmatchOne ps (c :: s) || fnmatchOne ('*' :: ps) s
  | '?' :: ps, _ :: s => fnmatchOne ps s
  | _ :: _, [] => false
  | p :: ps, c :: s => (p == c) && fnmatchOne ps s
termination_by p s => (s.length, p.length)

/-- Model of `fnmatch.filter(names, pat)`. -/
def fnmatchFilter (names : List String) (pat : String) : List String :=
  names.filter (fun n => fnmatchOne pat.toList n.toList)

/-- Model of `list_directory_recursive`.  On a VFS root it runs the
recursive walk inside `try: ... except FionaValueError: pass`, so *any*
`FionaValueError` escaping the walk leaves `all_files = []`; the result is
then filtered against `os.path.join('*', filename_glob)`.  On a local root
it delegates to the external `glob.iglob`, abstracted as `localGlob`. -/
def list_directory_recursive (D : String → FionaResult)
    (localGlob : String → String → List String) (fuel : ℕ)
    (root filename_glob : String) : Option (List String) :=
  if path_is_gdal_vsi root then
    (listdir_vfs_recursive D fuel root).map (fun r =>
      let all_files := match r with
        | Except.ok fs => fs
        | Except.error _ => []
      fnmatchFilter all_files ("*/" ++ filename_glob))
  else
    some (localGlob root filename_glob)

/-- The concrete driver used for the C5 counterexample and witness: the
root lists one subdirectory, and listing that subdirectory fails with a
`does not exist` error. -/
def vfsTestDriver : String → FionaResult := fun s =>
  if s = "az://c" then FionaResult.ok ["sub"]
  else if s = "az://c/sub" then FionaResult.err "does not exist"
  else FionaResult.ok []

/-- Counterexample for C5: the root itself lists fine, the driver error
arises at the subdirectory `az://c/sub` reached mid-walk, the walk
re-raises it — and yet `list_directory_recursive` returns the empty list
instead of propagating the error, because its `except FionaValueError:
pass` is not restricted to the root. -/
theorem c5_error_suppressed_counterexample :
    vfsTestDriver "az://c" = FionaResult.ok ["sub"] ∧
    vfsTestDriver "az://c/sub" = FionaResult.err "does not exist" ∧
    listdir_vfs_recursive vfsTestDriver 5 "az://c" =
      some (Except.error "does not exist") ∧
    list_directory_recursive vfsTestDriver (fun _ _ => []) 5 "az://c" "*.tif" =
      some [] := by
  refine ⟨rfl, rfl, rfl, rfl⟩

/-- C5 (amended): inside the recursive walk every driver error whose message
does not contain `is not a directory` (in particular `does not exist`)
propagates unchanged, straight from the driver; but `list_directory_recursive`
silently converts *every* such error escaping the walk — whether it arose at
the root or at a subdirectory reached mid-walk — into an empty list. -/
theorem c5_vfs_error_propagation :
    (∀ (D : String → FionaResult) (fuel : ℕ) (dirs files : List String)
        (e : String),
      listdirVfsAux D fuel dirs files = some (Except.error e) →
      ∃ d, D d = FionaResult.err e ∧
        strContainsSub "is not a directory" e = false) ∧
    (∀ (D : String → FionaResult) (localGlob : String → String → List String)
        (fuel : ℕ) (root glob e : String),
      path_is_gdal_vsi root = true →
      listdir_vfs_recursive D fuel root = some (Except.error e) →
      list_directory_recursive D localGlob fuel root glob = some []) := by
  constructor
  · intro D fuel
    induction fuel with
    | zero =>
      intro dirs files e h
      unfold listdirVfsAux at h
      cases hl : dirs.getLast? with
      | none => simp only [hl] at h; exact Except.noConfusion (Option.some.inj h)
      | some dir => simp only [hl] at h; exact Option.noConfusion h
    | succ n ih =>
      intro dirs files e h
      unfold listdirVfsAux at h
      cases hl : dirs.getLast? with
      | none => simp only [hl] at h; exact Except.noConfusion (Option.some.inj h)
      | some dir =>
        simp only [hl] at h
        cases hD : D dir with
        | ok subdirs =>
          simp only [hD] at h
          exact ih _ _ _ h
        | err m =>
          simp only [hD] at h
          by_cases hc : strContainsSub "is not a directory" m = true
          · rw [if_pos hc] at h
            exact ih _ _ _ h
          · rw [if_neg hc] at h
            obtain rfl : m = e := Except.error.inj (Option.some.inj h)
            exact ⟨dir, hD, Bool.eq_false_iff.mpr hc⟩
  · intro D localGlob fuel root glob e hv hw
    unfold list_directory_recursive
    rw [if_pos hv, hw]
    rfl

/-- Witness for C5 (amended), applying both parts at the concrete driver. -/
theorem c5_vfs_error_propagation_witness :
    (∃ d, vfsTestDriver d = FionaResult.err "does not exist" ∧
      strContainsSub "is not a directory" "does not exist" = false) ∧
    list_directory_recursive vfsTestDriver (fun _ _ => []) 5 "az://c" "*.tif" =
      some [] :=
  ⟨c5_vfs_error_propagation.1 vfsTestDriver 5 ["az://c"] [] "does not exist" rfl,
   c5_vfs_error_propagation.2 vfsTestDriver (fun _ _ => []) 5 "az://c" "*.tif"
      "does not exist" (by decide) rfl⟩

/-- Model of a `torch.Tensor`: a 0-dimensional scalar or a vector of
subtensors along the leading axis.  Real tensors are regular (all siblings
share a shape); the operations below check shapes exactly as `torch`
does on the inputs the repository feeds them. -/
inductive Tens where
  | scal (x : ℤ)
  | vec (ts : List Tens)
deriving Repr

/-- The shape of a tensor, read off the leading spine. -/
def Tens.shape : Tens → List ℕ
  | .scal _ => []
  | .vec [] => [0]
  | .vec (t :: ts) => (ts.length + 1) :: t.shape

/-- Model of a Python value stored in a sample dictionary: a tensor, an
opaque scalar (metadata), a list, or a tuple. -/
inductive PyVal where
  | tens (t : Tens)
  | intv (n : ℤ)
  | list (vs : List PyVal)
  | tuple (vs : List PyVal)
deriving Repr

/-- Model of `isinstance(v, Tensor)`. -/
def PyVal.isTens : PyVal → Bool
  | .tens _ => true
  | _ => false

/-- A sample: an insertion-ordered dictionary from string keys to values. -/
abbrev Sample := List (String × PyVal)

/-- Sequential `map` over a Python loop that can raise: left to right,
aborting at the first failure. -/
def optMapM (f : α → Option β) : List α → Option (List β)
  | [] => some []
  | a :: as =>
    match f a, optMapM f as with
    | some b, some bs => some (b :: bs)
    | _, _ => none

/-- Sequential fold over a Python loop that can raise. -/
def optFoldM (f : β → α → Option β) : β → List α → Option β
  | b, [] => some b
  | b, a :: as =>
    match f b a with
    | some b' => optFoldM f b' as
    | none => none

/-- Model of `torch.stack`: requires a nonempty list of equally-shaped
tensors and stacks them along a new leading axis. -/
def torchStack (ts : List Tens) : Option Tens :=
  match ts with
  | [] => none
  | t :: rest =>
    if rest.all (fun u => u.shape == t.shape) then some (Tens.vec ts) else none

/-- Model of `torch.unbind(t, dim=0)`: the list of subtensors along the
leading axis; fails on a 0-dimensional tensor. -/
def torchUnbind : Tens → Option (List Tens)
  | .scal _ => none
  | .vec ts => some ts

mutual
/-- Model of `torch.maximum`: elementwise maximum of two equally-shaped
tensors (broadcasting is not needed by the repository's uses). -/
def torchMaximum : Tens → Tens → Option Tens
  | .scal a, .scal b => some (.scal (max a b))
  | .vec ts, .vec us => (torchMaximumList ts us).map Tens.vec
  | _, _ => none

def torchMaximumList : List Tens → List Tens → Option (List Tens)
  | [], [] => some []
  | t :: ts, u :: us =>
    match torchMaximum t u, torchMaximumList ts us with
    | some m, some ms => some (m :: ms)
    | _, _ => none
  | _, _ => none
end

/-- One step of `collections.defaultdict(list)` appending: `d[k].append v`,
preserving CPython dict insertion order (an existing key keeps its slot, a
new key goes to the end). -/
def dictAppendOne (d : List (String × List PyVal)) (k : String) (v : PyVal) :
    List (String × List PyVal) :=
  match d with
  | [] => [(k, [v])]
  | (k', vs) :: rest =>
    if k' = k then (k', vs ++ [v]) :: rest
    else (k', vs) :: dictAppendOne rest k v

/-- Model of `_list_dict_to_dict_list`: fold every `(key, value)` pair of
every sample into a defaultdict of lists. -/
def list_dict_to_dict_list (samples : List Sample) : List (String × List PyVal) :=
  samples.foldl (fun acc sample =>
    sample.foldl (fun acc2 kv => dictAppendOne acc2 kv.1 kv.2) acc) []

/-- Dict assignment `d[k] = v`: update in place if present, append if new. -/
def setKey (d : Sample) (k : String) (v : PyVal) : Sample :=
  match d with
  | [] => [(k, v)]
  | (k', v') :: rest =>
    if k' = k then (k', v) :: rest
    else (k', v') :: setKey rest k v

/-- Dict lookup `d[k]` / `k in d`. -/
def lookupKey (d : Sample) (k : String) : Option PyVal :=
  match d with
  | [] => none
  | (k', v') :: rest => if k' = k then some v' else lookupKey rest k

/-- Per-key step of `stack_samples`: if the first collated value is a
Tensor, `torch.stack` the whole list (raising if an element is not a
tensor or shapes differ); otherwise keep the collated list as is. -/
def stackValue (vs : List PyVal) : Option PyVal :=
  match vs with
  | [] => none
  | PyVal.tens _ :: _ =>
    match optMapM (fun v => match v with | PyVal.tens t => some t | _ => none) vs with
    | some ts => (torchStack ts).map PyVal.tens
    | none => none
  | _ :: _ => some (PyVal.list vs)

/-- Model of `stack_samples`. -/
def stack_samples (samples : List Sample) : Option Sample :=
  optMapM (fun kv => (stackValue kv.2).map (fun v => (kv.1, v)))
    (list_dict_to_dict_list samples)

/-- Model of `torch.cat(dim=0)`: every tensor must have at least one
dimension and the concatenated rows must share a shape. -/
def torchCat (ts : List Tens) : Option Tens :=
  match ts with
  | [] => none
  | _ =>
    match optMapM (fun t => match t with | Tens.vec us => some us | _ => none) ts with
    | some uss =>
      match uss.flatten with
      | [] => some (Tens.vec [])
      | c :: rest =>
        if rest.all (fun u => u.shape == c.shape) then some (Tens.vec (c :: rest))
        else none
    | none => none

/-- Per-key step of `concat_samples`: concatenate tensor lists, otherwise
keep only the first sample's value. -/
def concatValue (vs : List PyVal) : Option PyVal :=
  match vs with
  | [] => none
  | PyVal.tens _ :: _ =>
    match optMapM (fun v => match v with | PyVal.tens t => some t | _ => none) vs with
    | some ts => (torchCat ts).map PyVal.tens
    | none => none
  | v :: _ => some v

/-- Model of `concat_samples`. -/
def concat_samples (samples : List Sample) : Option Sample :=
  optMapM (fun kv => (concatValue kv.2).map (fun v => (kv.1, v)))
    (list_dict_to_dict_list samples)

/-- One `(key, value)` step of `merge_samples`: if the key is already
present and the incoming value is a Tensor, store
`torch.maximum(collated[key], value)` (raising if the stored value is not
a tensor of the same shape); otherwise `collated[key] = value`. -/
def mergeStep (c : Sample) (k : String) (v : PyVal) : Option Sample :=
  match lookupKey c k, v with
  | some old, PyVal.tens tnew =>
    match old with
    | PyVal.tens told =>
      (torchMaximum told tnew).map (fun m => setKey c k (PyVal.tens m))
    | _ => none
  | _, _ => some (setKey c k v)

/-- Inner loop of `merge_samples`: fold one sample's items into the
accumulator. -/
def mergeRow (c : Sample) (sample : Sample) : Option Sample :=
  optFoldM (fun c kv => mergeStep c kv.1 kv.2) c sample

/-- Model of `merge_samples`. -/
def merge_samples (samples : List Sample) : Option Sample :=
  optFoldM mergeRow [] samples

/-- Model of Python `len(v)` for the values `_dict_list_to_list_dict` and
`unbind_samples` meet: lists, tuples, and tensors of dimension at least
one (a 0-dim tensor, an int, etc. raise `TypeError`). -/
def pyElems : PyVal → Option (List PyVal)
  | PyVal.list vs => some vs
  | PyVal.tuple vs => some vs
  | PyVal.tens (Tens.vec ts) => some (ts.map PyVal.tens)
  | _ => none

/-- The in-place loop of `unbind_samples` on one entry:
`sample[key] = torch.unbind(values)` for Tensor values. -/
def unbindValue (v : PyVal) : Option PyVal :=
  match v with
  | PyVal.tens t => (torchUnbind t).map (fun ts => PyVal.tuple (ts.map PyVal.tens))
  | _ => some v

/-- The mutation `unbind_samples` performs on the caller's mapping before
transposing: every Tensor value is replaced by the tuple of its slices. -/
def unbind_mutate (sample : Sample) : Option Sample :=
  optMapM (fun kv => (unbindValue kv.2).map (fun v => (kv.1, v))) sample

/-- Inner loop of `_dict_list_to_list_dict`:
`for i, value in enumerate(values): uncollated[i][key] = value`. -/
def assignRows : List Sample → String → List PyVal → List Sample
  | rows, _, [] => rows
  | [], _, _ :: _ => []
  | row :: rows, k, v :: vs => setKey row k v :: assignRows rows k vs

/-- Model of `_dict_list_to_list_dict`: `max(map(len, sample.values()))`
rows (raising on an empty dict or a value without `len`), then distribute
every value sequence across the rows. -/
def dict_list_to_list_dict (sample : Sample) : Option (List Sample) :=
  match optMapM (fun kv => (pyElems kv.2).map (fun vs => (kv.1, vs))) sample with
  | none => none
  | some pairs =>
    match (pairs.map (fun kv => kv.2.length)).max? with
    | none => none
    | some n =>
      some (pairs.foldl (fun rows kv => assignRows rows kv.1 kv.2)
        (List.replicate n []))

/-- Model of `unbind_samples`: first the in-place mutation of the caller's
sample, then the transposition; returns the post-call state of the
argument together with the result. -/
def unbind_samples (sample : Sample) : Option (Sample × List Sample) :=
  match unbind_mutate sample with
  | none => none
  | some sample' =>
    (dict_list_to_list_dict sample').map (fun out => (sample', out))

/-- Counterexample for C6: `unbind_samples` is not side-effect-free — it
reassigns `sample[key]` in the caller's mapping, replacing the Tensor under
`"a"` by a tuple of slices, so the caller-supplied mapping differs after
the call returns. -/
theorem c6_unbind_mutates_counterexample :
    unbind_samples [("a", PyVal.tens (Tens.vec [Tens.scal 1, Tens.scal 2]))] =
      some ([("a", PyVal.tuple [PyVal.tens (Tens.scal 1), PyVal.tens (Tens.scal 2)])],
        [[("a", PyVal.tens (Tens.scal 1))], [("a", PyVal.tens (Tens.scal 2))]]) ∧
    [("a", PyVal.tuple [PyVal.tens (Tens.scal 1), PyVal.tens (Tens.scal 2)])] ≠
      [("a", PyVal.tens (Tens.vec [Tens.scal 1, Tens.scal 2]))] := by
  constructor
  · rfl
  · intro h
    simp at h

/-- Helper for C6: what `unbind_samples`' in-place loop does to the
caller's mapping. -/
theorem unbind_mutate_characterization (sample : Sample) :
    ∀ post, unbind_mutate sample = some post →
      (∀ k t, (k, PyVal.tens t) ∈ sample → ∃ ts, t = Tens.vec ts ∧
        (k, PyVal.tuple (ts.map PyVal.tens)) ∈ post) ∧
      (post = sample ↔ ∀ kv ∈ sample, kv.2.isTens = false) := by
  induction sample with
  | nil =>
    intro post h
    obtain rfl : post = [] := by
      simpa [unbind_mutate, optMapM] using h.symm
    simp
  | cons kv rest ih =>
    intro post h
    obtain ⟨k, v⟩ := kv
    simp only [unbind_mutate, optMapM] at h
    cases hv : (unbindValue v).map (fun v' => (k, v')) with
    | none => rw [hv] at h; exact Option.noConfusion h
    | some b =>
      rw [hv] at h
      cases hrest : optMapM (fun kv => (unbindValue kv.2).map (fun v' => (kv.1, v'))) rest with
      | none => rw [hrest] at h; exact Option.noConfusion h
      | some post' =>
        rw [hrest] at h
        obtain rfl : b :: post' = post := Option.some.inj h
        obtain ⟨v', hv', rfl⟩ := Option.map_eq_some'.mp hv
        obtain ⟨ih1, ih2⟩ := ih post' hrest
        constructor
        · intro k0 t0 hmem
          rcases List.mem_cons.mp hmem with hhead | htail
          · obtain ⟨rfl, rfl⟩ : k0 = k ∧ v = PyVal.tens t0 := by
              have h1 := congrArg Prod.fst hhead
              have h2 := congrArg Prod.snd hhead
              simp only at h1 h2
              exact ⟨h1, h2.symm⟩
            cases t0 with
            | scal x => simp [unbindValue, torchUnbind] at hv'
            | vec ts =>
              refine ⟨ts, rfl, ?_⟩
              have : v' = PyVal.tuple (ts.map PyVal.tens) := by
                simpa [unbindValue, torchUnbind] using hv'.symm
              rw [this]
              exact List.mem_cons_self _ _
          · obtain ⟨ts, hts, hmem'⟩ := ih1 k0 t0 htail
            exact ⟨ts, hts, List.mem_cons_of_mem _ hmem'⟩
        · have hnontens : v.isTens = false → v' = v := by
            intro hnt
            cases v <;> simp [unbindValue, PyVal.isTens] at hv' hnt ⊢ <;>
              exact hv'.symm
          constructor
          · intro heq
            obtain ⟨hhead, htail⟩ := List.cons.injEq _ _ _ _ ▸ heq
            have hv'v : v' = v := congrArg Prod.snd hhead
            intro kv hkv
            rcases List.mem_cons.mp hkv with rfl | hkv'
            · cases v with
              | tens t =>
                exfalso
                cases t with
                | scal x => simp [unbindValue, torchUnbind] at hv'
                | vec ts =>
                  have : v' = PyVal.tuple (ts.map PyVal.tens) := by
                    simpa [unbindValue, torchUnbind] using hv'.symm
                  rw [this] at hv'v
                  exact PyVal.noConfusion hv'v
              | intv n => simp [PyVal.isTens]
              | list vs => simp [PyVal.isTens]
              | tuple vs => simp [PyVal.isTens]
            · exact (ih2.mp htail) kv hkv'
          · intro hall
            have h1 : v.isTens = false := hall (k, v) (List.mem_cons_self _ _)
            have h2 : post' = rest :=
              ih2.mpr (fun kv hkv => hall kv (List.mem_cons_of_mem _ hkv))
            rw [hnontens h1, h2]

/-- C6 (amended): `stack_samples`, `concat_samples` and `merge_samples`
only read their input batches (they are pure functions of them in this
embedding, mirroring that the source never writes to a caller batch);
`unbind_samples`, however, mutates the caller's sample in place: every
Tensor value is replaced by the tuple of its leading-axis slices, so the
caller's mapping is unchanged after the call only when it held no Tensor
value. -/
theorem c6_collation_frame_effects (sample post : Sample) (out : List Sample)
    (h : unbind_samples sample = some (post, out)) :
    unbind_mutate sample = some post ∧
    (∀ k t, (k, PyVal.tens t) ∈ sample → ∃ ts, t = Tens.vec ts ∧
      (k, PyVal.tuple (ts.map PyVal.tens)) ∈ post) ∧
    (post = sample ↔ ∀ kv ∈ sample, kv.2.isTens = false) := by
  have hm : unbind_mutate sample = some post := by
    unfold unbind_samples at h
    cases hmu : unbind_mutate sample with
    | none => rw [hmu] at h; exact Option.noConfusion h
    | some s' =>
      rw [hmu] at h
      obtain ⟨out', _, heq⟩ := Option.map_eq_some'.mp h
      obtain rfl : s' = post := congrArg Prod.fst heq
      rfl
  obtain ⟨h1, h2⟩ := unbind_mutate_characterization sample post hm
  exact ⟨hm, h1, h2⟩

/-- Witness for C6 (amended) at a two-key all-tensor sample. -/
theorem c6_collation_frame_effects_witness :
    unbind_mutate [("a", PyVal.tens (Tens.vec [Tens.scal 7])),
        ("b", PyVal.tens (Tens.vec [Tens.scal 8]))] =
      some [("a", PyVal.tuple [PyVal.tens (Tens.scal 7)]),
        ("b", PyVal.tuple [PyVal.tens (Tens.scal 8)])] ∧
    (∀ k t, (k, PyVal.tens t) ∈
        [("a", PyVal.tens (Tens.vec [Tens.scal 7])),
         ("b", PyVal.tens (Tens.vec [Tens.scal 8]))] →
      ∃ ts, t = Tens.vec ts ∧ (k, PyVal.tuple (ts.map PyVal.tens)) ∈
        [("a", PyVal.tuple [PyVal.tens (Tens.scal 7)]),
         ("b", PyVal.tuple [PyVal.tens (Tens.scal 8)])]) ∧
    ([("a", PyVal.tuple [PyVal.tens (Tens.scal 7)]),
      ("b", PyVal.tuple [PyVal.tens (Tens.scal 8)])] =
        [("a", PyVal.tens (Tens.vec [Tens.scal 7])),
         ("b", PyVal.tens (Tens.vec [Tens.scal 8]))] ↔
      ∀ kv ∈ [("a", PyVal.tens (Tens.vec [Tens.scal 7])),
        ("b", PyVal.tens (Tens.vec [Tens.scal 8]))], kv.2.isTens = false) :=
  c6_collation_frame_effects _ _ _ rfl

/-- The value-level effect of one `merge_samples` step on a key that is
already present: a Tensor value is folded in with `torch.maximum`
(requiring the stored value to be a tensor too), any other value
overwrites. -/
def valStep (old v : PyVal) : Option PyVal :=
  match v with
  | PyVal.tens tnew =>
    match old with
    | PyVal.tens told => (torchMaximum told tnew).map PyVal.tens
    | _ => none
  | _ => some v

/-- Apply `valStep` pointwise across one batch row. -/
def valStepRow : List PyVal → List PyVal → Option (List PyVal)
  | [], [] => some []
  | w :: ws, v :: vs =>
    match valStep w v, valStepRow ws vs with
    | some w1, some ws1 => some (w1 :: ws1)
    | _, _ => none
  | _, _ => none

/-- Row-by-row fold of `valStepRow`, the value-level trace of
`merge_samples` after the first sample. -/
def colFold (ws : List PyVal) (vss : List (List PyVal)) : Option (List PyVal) :=
  optFoldM valStepRow ws vss

/-- Per-column fold of `valStep`, pointwise across columns. -/
def colFoldCols : List PyVal → List (List PyVal) → Option (List PyVal)
  | [], [] => some []
  | w :: ws, c :: cols =>
    match optFoldM valStep w c, colFoldCols ws cols with
    | some x, some xs => some (x :: xs)
    | _, _ => none
  | _, _ => none

/-- Homogeneity of the values stored under one key across a batch (the
`CollatedSample` invariant of the spec): either all tensors of one shape,
or no tensor at all. -/
def goodCol (c : List PyVal) : Bool :=
  match c with
  | [] => true
  | PyVal.tens t :: rest =>
    rest.all (fun v => match v with
      | PyVal.tens u => u.shape == t.shape
      | _ => false)
  | _ :: rest => rest.all (fun v => !(v.isTens))

/-- The columns of a batch of rows: entry `j` collects the `j`-th value of
every row, in batch order. -/
def colsOf (m : ℕ) : List (List PyVal) → List (List PyVal)
  | [] => List.replicate m []
  | vs :: vss => List.zipWith (fun v c => v :: c) vs (colsOf m vss)

/-- The merge result one key should hold according to the specification:
for a tensor column the elementwise maximum of all its values, otherwise
the last-written value. -/
def mergeColSpec : List PyVal → Option PyVal
  | [] => none
  | v :: rest =>
    match v with
    | PyVal.tens t =>
      (optFoldM (fun acc w => match w with
        | PyVal.tens u => torchMaximum acc u
        | _ => none) t rest).map PyVal.tens
    | _ => some (rest.getLastD v)

theorem valStepRow_length : ∀ (ws vs ws1 : List PyVal),
    valStepRow ws vs = some ws1 → ws1.length = ws.length := by
  intro ws
  induction ws with
  | nil =>
    intro vs ws1 h
    cases vs with
    | nil => simp [valStepRow] at h; simp [h.symm]
    | cons v vs' => simp [valStepRow] at h
  | cons w ws' ih =>
    intro vs ws1 h
    cases vs with
    | nil => simp [valStepRow] at h
    | cons v vs' =>
      simp only [valStepRow] at h
      cases h1 : valStep w v with
      | none => rw [h1] at h; exact Option.noConfusion h
      | some w1 =>
        rw [h1] at h
        cases h2 : valStepRow ws' vs' with
        | none => rw [h2] at h; exact Option.noConfusion h
        | some ws1' =>
          rw [h2] at h
          obtain rfl : w1 :: ws1' = ws1 := Option.some.inj h
          simp [ih vs' ws1' h2]

theorem colsOf_length : ∀ (m : ℕ) (vss : List (List PyVal)),
    (∀ vs ∈ vss, vs.length = m) → (colsOf m vss).length = m := by
  intro m vss
  induction vss with
  | nil => intro _; simp [colsOf]
  | cons vs vss' ih =>
    intro h
    have h1 : vs.length = m := h vs (List.mem_cons_self _ _)
    have h2 := ih (fun x hx => h x (List.mem_cons_of_mem _ hx))
    simp [colsOf, h1, h2]

theorem mergeStep_cons (c : Sample) (k : String) (w : PyVal)
    (k' : String) (v' : PyVal) (hne : k ≠ k') :
    mergeStep ((k, w) :: c) k' v' =
      (mergeStep c k' v').map (fun d => (k, w) :: d) := by
  cases hl : lookupKey c k' with
  | none =>
    cases v' <;>
      simp [mergeStep, lookupKey, setKey, hl, hne]
  | some old =>
    cases v' with
    | tens tnew =>
      cases old <;>
        simp [mergeStep, lookupKey, setKey, hl, hne, Option.map_map] <;>
        rfl
    | intv n => simp [mergeStep, lookupKey, setKey, hl, hne]
    | list vs => simp [mergeStep, lookupKey, setKey, hl, hne]
    | tuple vs => simp [mergeStep, lookupKey, setKey, hl, hne]

theorem mergeFold_cons : ∀ (pcs : List (String × PyVal)) (c : Sample)
    (k : String) (w : PyVal), (∀ kv ∈ pcs, kv.1 ≠ k) →
    optFoldM (fun c kv => mergeStep c kv.1 kv.2) ((k, w) :: c) pcs =
      (optFoldM (fun c kv => mergeStep c kv.1 kv.2) c pcs).map
        (fun d => (k, w) :: d) := by
  intro pcs
  induction pcs with
  | nil => intro c k w _; simp [optFoldM]
  | cons p pcs' ih =>
    intro c k w hall
    have hpk : k ≠ p.1 := (hall p (List.mem_cons_self _ _)).symm
    simp only [optFoldM]
    rw [mergeStep_cons c k w p.1 p.2 hpk]
    cases hms : mergeStep c p.1 p.2 with
    | none => simp
    | some c1 =>
      simp only [Option.map_some']
      exact ih c1 k w (fun kv hkv => hall kv (List.mem_cons_of_mem _ hkv))

theorem mergeFold_fresh : ∀ (pcs : List (String × PyVal)),
    (pcs.map Prod.fst).Nodup → mergeRow [] pcs = some pcs := by
  intro pcs
  induction pcs with
  | nil => intro _; rfl
  | cons p pcs' ih =>
    intro hnd
    obtain ⟨k, v⟩ := p
    simp only [List.map_cons, List.nodup_cons] at hnd
    have hstep : mergeStep [] k v = some [(k, v)] := by
      cases v <;> simp [mergeStep, lookupKey, setKey]
    simp only [mergeRow, optFoldM, hstep]
    rw [show ([(k, v)] : Sample) = (k, v) :: [] from rfl]
    rw [mergeFold_cons pcs' [] k v
      (fun kv hkv => fun he => hnd.1 (he ▸ List.mem_map_of_mem Prod.fst hkv))]
    have := ih hnd.2
    simp only [mergeRow] at this
    rw [this]
    rfl

theorem mergeFold_row : ∀ (ks : List String) (ws vs ws1 : List PyVal),
    ks.Nodup → ws.length = ks.length → vs.length = ks.length →
    valStepRow ws vs = some ws1 →
    mergeRow (List.zip ks ws) (List.zip ks vs) = some (List.zip ks ws1) := by
  intro ks
  induction ks with
  | nil =>
    intro ws vs ws1 _ hlw hlv hr
    obtain rfl : ws = [] := List.length_eq_zero.mp hlw
    obtain rfl : vs = [] := List.length_eq_zero.mp hlv
    obtain rfl : ws1 = [] := by
      simpa [valStepRow] using hr.symm
    rfl
  | cons k ks' ih =>
    intro ws vs ws1 hnd hlw hlv hr
    cases ws with
    | nil => simp at hlw
    | cons w ws' =>
    cases vs with
    | nil => simp at hlv
    | cons v vs' =>
    simp only [valStepRow] at hr
    cases h1 : valStep w v with
    | none => rw [h1] at hr; exact Option.noConfusion hr
    | some w1 =>
      rw [h1] at hr
      cases h2 : valStepRow ws' vs' with
      | none => rw [h2] at hr; exact Option.noConfusion hr
      | some ws1' =>
        rw [h2] at hr
        obtain rfl : w1 :: ws1' = ws1 := Option.some.inj hr
        simp only [List.nodup_cons] at hnd
        simp only [List.length_cons, Nat.succ.injEq] at hlw hlv
        have hstep : mergeStep ((k, w) :: List.zip ks' ws') k v =
            some ((k, w1) :: List.zip ks' ws') := by
          cases v with
          | tens tnew =>
            cases w with
            | tens told =>
              simp only [valStep] at h1
              obtain ⟨m, hm, rfl⟩ := Option.map_eq_some'.mp h1
              simp [mergeStep, lookupKey, setKey, hm]
            | intv n => simp [valStep] at h1
            | list vs0 => simp [valStep] at h1
            | tuple vs0 => simp [valStep] at h1
          | intv n =>
            obtain rfl : PyVal.intv n = w1 := by simpa [valStep] using h1
            simp [mergeStep, lookupKey, setKey]
          | list vs0 =>
            obtain rfl : PyVal.list vs0 = w1 := by simpa [valStep] using h1
            simp [mergeStep, lookupKey, setKey]
          | tuple vs0 =>
            obtain rfl : PyVal.tuple vs0 = w1 := by simpa [valStep] using h1
            simp [mergeStep, lookupKey, setKey]
        simp only [List.zip_cons_cons, mergeRow, optFoldM, hstep]
        have hall : ∀ kv ∈ List.zip ks' vs', kv.1 ≠ k := by
          intro kv hkv he
          obtain ⟨a, b⟩ := kv
          exact hnd.1 (he ▸ (List.mem_zip hkv).1)
        rw [show List.zipWith Prod.mk ks' vs' = List.zip ks' vs' from rfl]
        rw [mergeFold_cons (List.zip ks' vs') (List.zip ks' ws') k w1 hall]
        have := ih ws' vs' ws1' hnd.2 hlw hlv h2
        simp only [mergeRow] at this
        rw [this]
        rfl

theorem mergeFold_batch : ∀ (vss : List (List PyVal)) (ks : List String)
    (ws wsF : List PyVal),
    ks.Nodup → ws.length = ks.length → (∀ vs ∈ vss, vs.length = ks.length) →
    colFold ws vss = some wsF →
    optFoldM mergeRow (List.zip ks ws) (vss.map (List.zip ks ·)) =
      some (List.zip ks wsF) := by
  intro vss
  induction vss with
  | nil =>
    intro ks ws wsF _ _ _ hcf
    obtain rfl : ws = wsF := Option.some.inj hcf
    rfl
  | cons vs vss' ih =>
    intro ks ws wsF hnd hlw hlv hcf
    simp only [colFold, optFoldM] at hcf
    cases h1 : valStepRow ws vs with
    | none => rw [h1] at hcf; exact Option.noConfusion hcf
    | some ws1 =>
      rw [h1] at hcf
      simp only [List.map_cons, optFoldM]
      rw [mergeFold_row ks ws vs ws1 hnd hlw
        (hlv vs (List.mem_cons_self _ _)) h1]
      exact ih ks ws1 wsF hnd
        ((valStepRow_length ws vs ws1 h1).trans hlw)
        (fun x hx => hlv x (List.mem_cons_of_mem _ hx)) hcf

theorem optFoldM_valStep_tens : ∀ (rest : List PyVal) (t : Tens),
    (∀ w ∈ rest, w.isTens = true) →
    optFoldM valStep (PyVal.tens t) rest =
      (optFoldM (fun acc w => match w with
        | PyVal.tens u => torchMaximum acc u
        | _ => none) t rest).map PyVal.tens := by
  intro rest
  induction rest with
  | nil => intro t _; rfl
  | cons w rest' ih =>
    intro t hall
    have hw : w.isTens = true := hall w (List.mem_cons_self _ _)
    cases w with
    | tens u =>
      simp only [optFoldM, valStep]
      cases hm : torchMaximum t u with
      | none => simp
      | some m =>
        simp only [Option.map_some']
        exact ih m (fun x hx => hall x (List.mem_cons_of_mem _ hx))
    | intv n => simp [PyVal.isTens] at hw
    | list vs => simp [PyVal.isTens] at hw
    | tuple vs => simp [PyVal.isTens] at hw

theorem optFoldM_valStep_nontens : ∀ (rest : List PyVal) (v : PyVal),
    (∀ w ∈ rest, w.isTens = false) →
    optFoldM valStep v rest = some (rest.getLastD v) := by
  intro rest
  induction rest with
  | nil => intro v _; rfl
  | cons w rest' ih =>
    intro v hall
    have hw : w.isTens = false := hall w (List.mem_cons_self _ _)
    have hstep : valStep v w = some w := by
      cases w <;> simp [PyVal.isTens] at hw ⊢ <;> rfl
    simp only [optFoldM, hstep, List.getLastD_cons]
    exact ih w (fun x hx => hall x (List.mem_cons_of_mem _ hx))

theorem mergeColSpec_eq_fold (v : PyVal) (rest : List PyVal)
    (hg : goodCol (v :: rest) = true) :
    mergeColSpec (v :: rest) = optFoldM valStep v rest := by
  cases v with
  | tens t =>
    have hall : ∀ w ∈ rest, w.isTens = true := by
      intro w hw
      have := List.all_eq_true.mp hg w hw
      cases w <;> simp_all [PyVal.isTens]
    rw [optFoldM_valStep_tens rest t hall]
    rfl
  | intv n =>
    have hall : ∀ w ∈ rest, w.isTens = false := by
      intro w hw
      have := List.all_eq_true.mp hg w hw
      cases w <;> simp_all [PyVal.isTens]
    rw [optFoldM_valStep_nontens rest _ hall]
    rfl
  | list vs =>
    have hall : ∀ w ∈ rest, w.isTens = false := by
      intro w hw
      have := List.all_eq_true.mp hg w hw
      cases w <;> simp_all [PyVal.isTens]
    rw [optFoldM_valStep_nontens rest _ hall]
    rfl
  | tuple vs =>
    have hall : ∀ w ∈ rest, w.isTens = false := by
      intro w hw
      have := List.all_eq_true.mp hg w hw
      cases w <;> simp_all [PyVal.isTens]
    rw [optFoldM_valStep_nontens rest _ hall]
    rfl

theorem colFoldCols_replicate : ∀ (ws : List PyVal),
    colFoldCols ws (List.replicate ws.length []) = some ws := by
  intro ws
  induction ws with
  | nil => rfl
  | cons w ws' ih =>
    simp only [List.length_cons, List.replicate_succ, colFoldCols]
    rw [show optFoldM valStep w [] = some w from rfl, ih]

theorem colFoldCols_cons_col : ∀ (ws vs : List PyVal)
    (cols : List (List PyVal)),
    ws.length = vs.length → ws.length = cols.length →
    colFoldCols ws (List.zipWith (fun v c => v :: c) vs cols) =
      match valStepRow ws vs with
      | some ws1 => colFoldCols ws1 cols
      | none => none := by
  intro ws
  induction ws with
  | nil =>
    intro vs cols hlv hlc
    obtain rfl : vs = [] := List.length_eq_zero.mp hlv.symm
    obtain rfl : cols = [] := List.length_eq_zero.mp hlc.symm
    rfl
  | cons w ws' ih =>
    intro vs cols hlv hlc
    cases vs with
    | nil => simp at hlv
    | cons v vs' =>
    cases cols with
    | nil => simp at hlc
    | cons c cols' =>
    simp only [List.length_cons, Nat.succ.injEq] at hlv hlc
    simp only [List.zipWith_cons_cons, colFoldCols, valStepRow, optFoldM]
    cases h1 : valStep w v with
    | none =>
      simp only [h1]
    | some w1 =>
      simp only [h1]
      rw [ih vs' cols' hlv hlc]
      cases h2 : valStepRow ws' vs' with
      | none =>
        simp only [h2]
        cases optFoldM valStep w1 c <;> rfl
      | some ws1' =>
        simp only [h2, colFoldCols]

theorem colFold_eq_cols : ∀ (vss : List (List PyVal)) (ws : List PyVal)
    (m : ℕ), ws.length = m → (∀ vs ∈ vss, vs.length = m) →
    colFold ws vss = colFoldCols ws (colsOf m vss) := by
  intro vss
  induction vss with
  | nil =>
    intro ws m hl _
    subst hl
    rw [show colsOf ws.length [] = List.replicate ws.length [] from rfl,
      colFoldCols_replicate]
    rfl
  | cons vs vss' ih =>
    intro ws m hl hall
    rw [show colsOf m (vs :: vss') =
      List.zipWith (fun v c => v :: c) vs (colsOf m vss') from rfl]
    rw [colFoldCols_cons_col ws vs (colsOf m vss')
      (by rw [hl, hall vs (List.mem_cons_self _ _)])
      (by rw [hl, colsOf_length m vss'
        (fun x hx => hall x (List.mem_cons_of_mem _ hx))])]
    simp only [colFold, optFoldM]
    cases h1 : valStepRow ws vs with
    | none => rfl
    | some ws1 =>
      exact ih ws1 m ((valStepRow_length ws vs ws1 h1).trans hl)
        (fun x hx => hall x (List.mem_cons_of_mem _ hx))

theorem mem_zipWith_of_mem_zip {α β γ : Type} (f : α → β → γ) :
    ∀ (l1 : List α) (l2 : List β) (a : α) (b : β),
    (a, b) ∈ List.zip l1 l2 → f a b ∈ List.zipWith f l1 l2 := by
  intro l1
  induction l1 with
  | nil => intro l2 a b h; simp [List.zip] at h
  | cons x l1' ih =>
    intro l2 a b h
    cases l2 with
    | nil => simp [List.zip] at h
    | cons y l2' =>
      simp only [List.zip_cons_cons, List.mem_cons] at h
      rcases h with h | h
      · obtain ⟨rfl, rfl⟩ := Prod.mk.injEq _ _ _ _ ▸ h
        simp [List.zipWith_cons_cons]
      · simp only [List.zipWith_cons_cons, List.mem_cons]
        exact Or.inr (ih l2' a b h)

theorem colFoldCols_spec : ∀ (ws : List PyVal) (cols : List (List PyVal)),
    ws.length = cols.length →
    (∀ p ∈ List.zip ws cols, goodCol (p.1 :: p.2) = true) →
    optMapM mergeColSpec (List.zipWith (fun v c => v :: c) ws cols) =
      colFoldCols ws cols := by
  intro ws
  induction ws with
  | nil =>
    intro cols hl _
    obtain rfl : cols = [] := List.length_eq_zero.mp hl.symm
    rfl
  | cons w ws' ih =>
    intro cols hl hg
    cases cols with
    | nil => simp at hl
    | cons c cols' =>
    simp only [List.length_cons, Nat.succ.injEq] at hl
    have hghead : goodCol (w :: c) = true :=
      hg (w, c) (by simp [List.zip_cons_cons])
    simp only [List.zipWith_cons_cons, optMapM, colFoldCols]
    rw [mergeColSpec_eq_fold w c hghead]
    rw [ih cols' hl (fun p hp => hg p (by
      simp only [List.zip_cons_cons, List.mem_cons]
      exact Or.inr hp))]
    cases optFoldM valStep w c <;> cases colFoldCols ws' cols' <;> rfl

/-- C8: for a batch of samples sharing the key list `ks` (the spec's
`CollatedSample` invariant: homogeneous values under each key), `merge_samples`
folds the batch into one mapping in which every key holds the value demanded
by the specification: the elementwise maximum of its tensor values, and the
last-written value for every other repeated key (`mergeColSpec` per
column). -/
theorem c8_merge_samples_spec (ks : List String) (vss : List (List PyVal))
    (ws : List PyVal) (hnd : ks.Nodup) (hne : vss ≠ [])
    (hlen : ∀ vs ∈ vss, vs.length = ks.length)
    (hgood : ∀ c ∈ colsOf ks.length vss, goodCol c = true)
    (hspec : optMapM mergeColSpec (colsOf ks.length vss) = some ws) :
    merge_samples (vss.map (List.zip ks ·)) = some (List.zip ks ws) := by
  obtain ⟨vs0, vss', rfl⟩ : ∃ v t, vss = v :: t := by
    cases vss with
    | nil => exact absurd rfl hne
    | cons a b => exact ⟨a, b, rfl⟩
  have hlen0 : vs0.length = ks.length := hlen vs0 (List.mem_cons_self _ _)
  have hlen' : ∀ vs ∈ vss', vs.length = ks.length :=
    fun x hx => hlen x (List.mem_cons_of_mem _ hx)
  have hcl : (colsOf ks.length vss').length = ks.length :=
    colsOf_length _ _ hlen'
  have hgp : ∀ p ∈ List.zip vs0 (colsOf ks.length vss'),
      goodCol (p.1 :: p.2) = true := by
    intro p hp
    obtain ⟨a, b⟩ := p
    exact hgood _ (mem_zipWith_of_mem_zip (fun v c => v :: c) _ _ a b hp)
  have hspec' : colFoldCols vs0 (colsOf ks.length vss') = some ws := by
    rw [← colFoldCols_spec vs0 _ (hlen0.trans hcl.symm) hgp]
    exact hspec
  have hcf : colFold vs0 vss' = some ws := by
    rw [colFold_eq_cols vss' vs0 ks.length hlen0 hlen']
    exact hspec'
  have hfirst : mergeRow [] (List.zip ks vs0) = some (List.zip ks vs0) :=
    mergeFold_fresh _ (by rw [List.map_fst_zip ks vs0 hlen0.ge]; exact hnd)
  simp only [List.map_cons, merge_samples, optFoldM, hfirst]
  have := mergeFold_batch vss' ks vs0 ws hnd hlen0 hlen' hcf
  simpa [merge_samples] using this

/-- Witness for C8 at the spec's concrete example:
`Merge([{"m": [0,5,0]}, {"m": [3,0,0]}])` yields `{"m": [3,5,0]}`. -/
theorem c8_merge_samples_spec_witness :
    merge_samples
      [[("m", PyVal.tens (Tens.vec [Tens.scal 0, Tens.scal 5, Tens.scal 0]))],
       [("m", PyVal.tens (Tens.vec [Tens.scal 3, Tens.scal 0, Tens.scal 0]))]] =
      some [("m", PyVal.tens (Tens.vec [Tens.scal 3, Tens.scal 5, Tens.scal 0]))] := by
  have h := c8_merge_samples_spec ["m"]
    [[PyVal.tens (Tens.vec [Tens.scal 0, Tens.scal 5, Tens.scal 0])],
     [PyVal.tens (Tens.vec [Tens.scal 3, Tens.scal 0, Tens.scal 0])]]
    [PyVal.tens (Tens.vec [Tens.scal 3, Tens.scal 5, Tens.scal 0])]
    (by decide) (List.cons_ne_nil _ _) (by decide) (by decide) rfl
  exact h

theorem optMapM_some {α β : Type} (f : α → Option β) (g : α → β) :
    ∀ (l : List α), (∀ a ∈ l, f a = some (g a)) →
    optMapM f l = some (l.map g) := by
  intro l
  induction l with
  | nil => intro _; rfl
  | cons a as ih =>
    intro h
    simp only [optMapM, h a (List.mem_cons_self _ _),
      ih (fun x hx => h x (List.mem_cons_of_mem _ hx)), List.map_cons]

theorem optMapM_map {α β γ : Type} (f : β → Option γ) (h : α → β) :
    ∀ (l : List α), optMapM f (l.map h) = optMapM (fun a => f (h a)) l := by
  intro l
  induction l with
  | nil => rfl
  | cons a as ih => simp only [List.map_cons, optMapM, ih]

theorem zipWith_mem_inv {α β γ : Type} (f : α → β → γ) :
    ∀ (l1 : List α) (l2 : List β) (x : γ), x ∈ List.zipWith f l1 l2 →
    ∃ a b, a ∈ l1 ∧ b ∈ l2 ∧ x = f a b := by
  intro l1
  induction l1 with
  | nil => intro l2 x h; simp at h
  | cons a l1' ih =>
    intro l2 x h
    cases l2 with
    | nil => simp at h
    | cons b l2' =>
      simp only [List.zipWith_cons_cons, List.mem_cons] at h
      rcases h with rfl | h
      · exact ⟨a, b, List.mem_cons_self _ _, List.mem_cons_self _ _, rfl⟩
      · obtain ⟨a', b', ha, hb, rfl⟩ := ih l2' x h
        exact ⟨a', b', List.mem_cons_of_mem _ ha, List.mem_cons_of_mem _ hb, rfl⟩

theorem zipWith_append_replicate_nil {α : Type} :
    ∀ (l : List (List α)), List.zipWith (· ++ ·) l (List.replicate l.length []) = l := by
  intro l
  induction l with
  | nil => rfl
  | cons c l' ih =>
    simp only [List.length_cons, List.replicate_succ, List.zipWith_cons_cons,
      List.append_nil, ih]

theorem zipWith_replicate_nil_append {α : Type} :
    ∀ (l : List (List α)) (n : ℕ), l.length = n →
    List.zipWith (· ++ ·) (List.replicate n []) l = l := by
  intro l
  induction l with
  | nil => intro n h; subst h; rfl
  | cons c l' ih =>
    intro n h
    subst h
    simp only [List.length_cons, List.replicate_succ, List.zipWith_cons_cons,
      List.nil_append, ih l'.length rfl]

theorem zipWith_append_snoc {α β : Type} (g : β → α) :
    ∀ (rows : List (List α)) (c : List β) (ts : List (List α)),
    List.zipWith (· ++ ·) (List.zipWith (fun row v => row ++ [g v]) rows c) ts =
      List.zipWith (· ++ ·) rows (List.zipWith (fun v t => g v :: t) c ts) := by
  intro rows
  induction rows with
  | nil => intro c ts; simp
  | cons row rows' ih =>
    intro c ts
    cases c with
    | nil => simp
    | cons v c' =>
      cases ts with
      | nil => simp
      | cons t ts' =>
        simp only [List.zipWith_cons_cons, ih, List.cons.injEq]
        constructor
        · simp [List.append_assoc]
        · trivial

theorem foldl_max_const : ∀ (l : List ℕ) (n : ℕ), (∀ x ∈ l, x = n) →
    l.foldl max n = n := by
  intro l
  induction l with
  | nil => intro n _; rfl
  | cons a l' ih =>
    intro n h
    obtain rfl : a = n := h a (List.mem_cons_self _ _)
    simp only [List.foldl_cons, max_self]
    exact ih a (fun x hx => h x (List.mem_cons_of_mem _ hx))

theorem max?_const (l : List ℕ) (n : ℕ) (hne : l ≠ [])
    (h : ∀ x ∈ l, x = n) : l.max? = some n := by
  cases l with
  | nil => exact absurd rfl hne
  | cons a l' =>
    obtain rfl : a = n := h a (List.mem_cons_self _ _)
    rw [List.max?_cons']
    rw [foldl_max_const l' a (fun x hx => h x (List.mem_cons_of_mem _ hx))]

theorem colsOf_mem_length : ∀ (m : ℕ) (vss : List (List PyVal))
    (c : List PyVal), c ∈ colsOf m vss → c.length = vss.length := by
  intro m vss
  induction vss with
  | nil =>
    intro c hc
    simp only [colsOf] at hc
    rw [List.eq_of_mem_replicate hc]
    rfl
  | cons vs vss' ih =>
    intro c hc
    simp only [colsOf] at hc
    obtain ⟨v, c', _, hc', rfl⟩ := zipWith_mem_inv _ _ _ _ hc
    simp [ih c' hc']

theorem dictAppendOne_cons (d : List (String × List PyVal)) (k : String)
    (vs : List PyVal) (k' : String) (v : PyVal) (hne : k ≠ k') :
    dictAppendOne ((k, vs) :: d) k' v = (k, vs) :: dictAppendOne d k' v := by
  simp [dictAppendOne, hne]

theorem dictFold_cons : ∀ (pcs : List (String × PyVal))
    (d : List (String × List PyVal)) (k : String) (vs : List PyVal),
    (∀ kv ∈ pcs, kv.1 ≠ k) →
    pcs.foldl (fun a kv => dictAppendOne a kv.1 kv.2) ((k, vs) :: d) =
      (k, vs) :: pcs.foldl (fun a kv => dictAppendOne a kv.1 kv.2) d := by
  intro pcs
  induction pcs with
  | nil => intro d k vs _; rfl
  | cons p pcs' ih =>
    intro d k vs hall
    simp only [List.foldl_cons]
    rw [dictAppendOne_cons d k vs p.1 p.2 (hall p (List.mem_cons_self _ _)).symm]
    exact ih _ k vs (fun kv hkv => hall kv (List.mem_cons_of_mem _ hkv))

theorem dictFold_fresh : ∀ (ks : List String) (vs : List PyVal),
    ks.Nodup → vs.length = ks.length →
    (List.zip ks vs).foldl (fun a kv => dictAppendOne a kv.1 kv.2) [] =
      List.zip ks (vs.map (fun v => [v])) := by
  intro ks
  induction ks with
  | nil => intro vs _ _; rfl
  | cons k ks' ih =>
    intro vs hnd hl
    cases vs with
    | nil => simp at hl
    | cons v vs' =>
      simp only [List.length_cons, Nat.succ.injEq] at hl
      simp only [List.nodup_cons] at hnd
      simp only [List.zip_cons_cons, List.foldl_cons, List.map_cons]
      rw [show dictAppendOne [] k v = [(k, [v])] from rfl]
      rw [show ([(k, [v])] : List (String × List PyVal)) = (k, [v]) :: [] from rfl]
      rw [dictFold_cons (List.zip ks' vs') [] k [v]
        (fun kv hkv he => hnd.1 (he ▸ (List.of_mem_zip hkv).1))]
      rw [ih vs' hnd.2 hl]

theorem dictFold_extend : ∀ (ks : List String) (vs : List PyVal)
    (cols : List (List PyVal)),
    ks.Nodup → vs.length = ks.length → cols.length = ks.length →
    (List.zip ks vs).foldl (fun a kv => dictAppendOne a kv.1 kv.2)
        (List.zip ks cols) =
      List.zip ks (List.zipWith (fun c v => c ++ [v]) cols vs) := by
  intro ks
  induction ks with
  | nil =>
    intro vs cols _ hlv hlc
    obtain rfl : vs = [] := List.length_eq_zero.mp hlv
    obtain rfl : cols = [] := List.length_eq_zero.mp hlc
    rfl
  | cons k ks' ih =>
    intro vs cols hnd hlv hlc
    cases vs with
    | nil => simp at hlv
    | cons v vs' =>
    cases cols with
    | nil => simp at hlc
    | cons c cols' =>
    simp only [List.length_cons, Nat.succ.injEq] at hlv hlc
    simp only [List.nodup_cons] at hnd
    simp only [List.zip_cons_cons, List.foldl_cons, List.zipWith_cons_cons]
    rw [show dictAppendOne ((k, c) :: List.zip ks' cols') k v =
      (k, c ++ [v]) :: List.zip ks' cols' from by simp [dictAppendOne]]
    rw [dictFold_cons (List.zip ks' vs') (List.zip ks' cols') k (c ++ [v])
      (fun kv hkv he => hnd.1 (he ▸ (List.of_mem_zip hkv).1))]
    rw [ih vs' cols' hnd.2 hlv hlc]

theorem dictFold_batch : ∀ (vss : List (List PyVal)) (ks : List String)
    (cols : List (List PyVal)),
    ks.Nodup → (∀ vs ∈ vss, vs.length = ks.length) → cols.length = ks.length →
    (vss.map (List.zip ks ·)).foldl
        (fun acc s => s.foldl (fun a kv => dictAppendOne a kv.1 kv.2) acc)
        (List.zip ks cols) =
      List.zip ks (List.zipWith (· ++ ·) cols (colsOf ks.length vss)) := by
  intro vss
  induction vss with
  | nil =>
    intro ks cols _ _ hlc
    simp only [List.map_nil, List.foldl_nil, colsOf]
    rw [← hlc, zipWith_append_replicate_nil]
  | cons vs vss' ih =>
    intro ks cols hnd hall hlc
    simp only [List.map_cons, List.foldl_cons]
    rw [dictFold_extend ks vs cols hnd (hall vs (List.mem_cons_self _ _)) hlc]
    rw [ih ks _ hnd (fun x hx => hall x (List.mem_cons_of_mem _ hx))
      (by rw [List.length_zipWith, hlc, hall vs (List.mem_cons_self _ _),
        min_self])]
    rw [show colsOf ks.length (vs :: vss') =
      List.zipWith (fun v c => v :: c) vs (colsOf ks.length vss') from rfl]
    rw [zipWith_append_snoc (fun v : PyVal => v) cols vs (colsOf ks.length vss')]

theorem zipWith_map_singleton_append :
    ∀ (vs : List PyVal) (ts : List (List PyVal)),
    List.zipWith (· ++ ·) (vs.map (fun v => [v])) ts =
      List.zipWith (fun v t => v :: t) vs ts := by
  intro vs
  induction vs with
  | nil => intro ts; rfl
  | cons v vs' ih =>
    intro ts
    cases ts with
    | nil => rfl
    | cons t ts' =>
      simp only [List.map_cons, List.zipWith_cons_cons, List.singleton_append, ih]

theorem list_dict_eq_cols (ks : List String) (vss : List (List PyVal))
    (hnd : ks.Nodup) (hne : vss ≠ [])
    (hlen : ∀ vs ∈ vss, vs.length = ks.length) :
    list_dict_to_dict_list (vss.map (List.zip ks ·)) =
      List.zip ks (colsOf ks.length vss) := by
  obtain ⟨vs0, vss', rfl⟩ : ∃ v t, vss = v :: t := by
    cases vss with
    | nil => exact absurd rfl hne
    | cons a b => exact ⟨a, b, rfl⟩
  have hl0 : vs0.length = ks.length := hlen vs0 (List.mem_cons_self _ _)
  simp only [list_dict_to_dict_list, List.map_cons, List.foldl_cons]
  rw [dictFold_fresh ks vs0 hnd hl0]
  rw [dictFold_batch vss' ks (vs0.map (fun v => [v])) hnd
    (fun x hx => hlen x (List.mem_cons_of_mem _ hx))
    (by rw [List.length_map, hl0])]
  rw [zipWith_map_singleton_append vs0 (colsOf ks.length vss')]
  rfl

/-- Extract the tensor from a tensor-valued `PyVal` (dummy on others; only
used under an all-tensor hypothesis). -/
def extractT : PyVal → Tens
  | PyVal.tens t => t
  | _ => Tens.scal 0

/-- The value `stack_samples` stores under a key, as a function of that
key's collated column. -/
def stackedVal (c : List PyVal) : PyVal :=
  match c with
  | PyVal.tens _ :: _ => PyVal.tens (Tens.vec (c.map extractT))
  | _ => PyVal.list c

/-- The value held under a key after `unbind_samples`' in-place loop, as a
function of the original column: a tuple for tensor columns, the collated
list otherwise. -/
def wrapVal (c : List PyVal) : PyVal :=
  match c with
  | PyVal.tens _ :: _ => PyVal.tuple c
  | _ => PyVal.list c

theorem optMapM_extract : ∀ (c : List PyVal), (∀ v ∈ c, v.isTens = true) →
    optMapM (fun v => match v with | PyVal.tens t => some t | _ => none) c =
      some (c.map extractT) := by
  intro c
  induction c with
  | nil => intro _; rfl
  | cons v rest ih =>
    intro h
    have hv := h v (List.mem_cons_self _ _)
    cases v with
    | tens t =>
      simp only [optMapM, List.map_cons,
        ih (fun x hx => h x (List.mem_cons_of_mem _ hx))]
      rfl
    | intv n => simp [PyVal.isTens] at hv
    | list vs => simp [PyVal.isTens] at hv
    | tuple vs => simp [PyVal.isTens] at hv

theorem map_extract_tens : ∀ (c : List PyVal), (∀ v ∈ c, v.isTens = true) →
    (c.map extractT).map PyVal.tens = c := by
  intro c
  induction c with
  | nil => intro _; rfl
  | cons v rest ih =>
    intro h
    have hv := h v (List.mem_cons_self _ _)
    cases v with
    | tens t =>
      simp only [List.map_cons, extractT,
        ih (fun x hx => h x (List.mem_cons_of_mem _ hx))]
    | intv n => simp [PyVal.isTens] at hv
    | list vs => simp [PyVal.isTens] at hv
    | tuple vs => simp [PyVal.isTens] at hv

theorem goodCol_tens_all (t : Tens) (rest : List PyVal)
    (hg : goodCol (PyVal.tens t :: rest) = true) :
    ∀ v ∈ PyVal.tens t :: rest, v.isTens = true := by
  intro v hv
  rcases List.mem_cons.mp hv with rfl | hv'
  · rfl
  · have := List.all_eq_true.mp hg v hv'
    cases v <;> simp_all [PyVal.isTens]

theorem torchStack_good (t : Tens) (rest : List PyVal)
    (hg : goodCol (PyVal.tens t :: rest) = true) :
    torchStack ((PyVal.tens t :: rest).map extractT) =
      some (Tens.vec ((PyVal.tens t :: rest).map extractT)) := by
  simp only [List.map_cons, extractT, torchStack]
  rw [if_pos]
  rw [List.all_eq_true]
  intro u hu
  obtain ⟨v, hv, rfl⟩ := List.mem_map.mp hu
  have := List.all_eq_true.mp hg v hv
  cases v with
  | tens u' => simpa [extractT] using this
  | intv n => simp at this
  | list vs => simp at this
  | tuple vs => simp at this

theorem stackValue_good (c : List PyVal) (hg : goodCol c = true)
    (hne : c ≠ []) : stackValue c = some (stackedVal c) := by
  cases c with
  | nil => exact absurd rfl hne
  | cons v rest =>
    cases v with
    | tens t =>
      have hall := goodCol_tens_all t rest hg
      simp only [stackValue, optMapM_extract _ hall, torchStack_good t rest hg,
        stackedVal]
      rfl
    | intv n => rfl
    | list vs => rfl
    | tuple vs => rfl

theorem unbindValue_stacked (c : List PyVal) (hg : goodCol c = true)
    (hne : c ≠ []) :
    unbindValue (stackedVal c) = some (wrapVal c) ∧
      pyElems (wrapVal c) = some c := by
  cases c with
  | nil => exact absurd rfl hne
  | cons v rest =>
    cases v with
    | tens t =>
      have hall := goodCol_tens_all t rest hg
      constructor
      · simp only [stackedVal, unbindValue, torchUnbind, wrapVal,
          Option.map_some']
        rw [map_extract_tens _ hall]
      · rfl
    | intv n => exact ⟨rfl, rfl⟩
    | list vs => exact ⟨rfl, rfl⟩
    | tuple vs => exact ⟨rfl, rfl⟩

/-- Transpose a keyed list of columns into `n` rows: row `i` holds, for
each key in order, the `i`-th entry of its column. -/
def transposeKC : List (String × List PyVal) → ℕ → List Sample
  | [], n => List.replicate n []
  | (k, c) :: rest, n =>
    List.zipWith (fun v row => (k, v) :: row) c (transposeKC rest n)

theorem transposeKC_zero : ∀ (pcs : List (String × List PyVal)),
    transposeKC pcs 0 = [] := by
  intro pcs
  induction pcs with
  | nil => rfl
  | cons p rest ih =>
    obtain ⟨k, c⟩ := p
    simp [transposeKC, ih]

theorem transposeKC_length : ∀ (pcs : List (String × List PyVal)) (n : ℕ),
    (∀ pc ∈ pcs, pc.2.length = n) → (transposeKC pcs n).length = n := by
  intro pcs
  induction pcs with
  | nil => intro n _; simp [transposeKC]
  | cons p rest ih =>
    intro n h
    obtain ⟨k, c⟩ := p
    have hc : c.length = n := h (k, c) (List.mem_cons_self _ _)
    simp [transposeKC, hc, ih n (fun x hx => h x (List.mem_cons_of_mem _ hx))]

theorem setKey_append (row : Sample) (k : String) (v : PyVal) :
    ∀ (hk : k ∉ row.map Prod.fst), setKey row k v = row ++ [(k, v)] := by
  induction row with
  | nil => intro _; rfl
  | cons kv rest ih =>
    intro hk
    obtain ⟨k', v'⟩ := kv
    simp only [List.map_cons, List.mem_cons] at hk
    push_neg at hk
    simp only [setKey, List.cons_append]
    rw [if_neg (Ne.symm hk.1), ih hk.2]

theorem assignRows_zip : ∀ (c : List PyVal) (rows : List Sample) (k : String),
    c.length = rows.length → (∀ row ∈ rows, k ∉ row.map Prod.fst) →
    assignRows rows k c = List.zipWith (fun row v => row ++ [(k, v)]) rows c := by
  intro c
  induction c with
  | nil =>
    intro rows k hl _
    obtain rfl : rows = [] := List.length_eq_zero.mp hl.symm
    rfl
  | cons v c' ih =>
    intro rows k hl hfresh
    cases rows with
    | nil => simp at hl
    | cons row rows' =>
      simp only [List.length_cons, Nat.succ.injEq] at hl
      simp only [assignRows, List.zipWith_cons_cons]
      rw [setKey_append row k v (hfresh row (List.mem_cons_self _ _))]
      rw [ih rows' k hl (fun x hx => hfresh x (List.mem_cons_of_mem _ hx))]

theorem assignRows_fold : ∀ (pcs : List (String × List PyVal))
    (rows : List Sample),
    (pcs.map Prod.fst).Nodup → (∀ pc ∈ pcs, pc.2.length = rows.length) →
    (∀ row ∈ rows, ∀ pc ∈ pcs, pc.1 ∉ row.map Prod.fst) →
    pcs.foldl (fun rows kv => assignRows rows kv.1 kv.2) rows =
      List.zipWith (· ++ ·) rows (transposeKC pcs rows.length) := by
  intro pcs
  induction pcs with
  | nil =>
    intro rows _ _ _
    simp only [List.foldl_nil, transposeKC, zipWith_append_replicate_nil]
  | cons p pcs' ih =>
    intro rows hnd hlen hfresh
    obtain ⟨k, c⟩ := p
    simp only [List.map_cons, List.nodup_cons] at hnd
    have hc : c.length = rows.length := hlen (k, c) (List.mem_cons_self _ _)
    simp only [List.foldl_cons]
    rw [assignRows_zip c rows k hc
      (fun row hrow => hfresh row hrow (k, c) (List.mem_cons_self _ _))]
    have hlen1 : (List.zipWith (fun row v => row ++ [(k, v)]) rows c).length =
        rows.length := by
      rw [List.length_zipWith, hc, min_self]
    rw [ih (List.zipWith (fun row v => row ++ [(k, v)]) rows c) hnd.2
      (by
        intro pc hpc
        rw [hlen1]
        exact hlen pc (List.mem_cons_of_mem _ hpc))
      (by
        intro row1 hrow1 pc hpc
        obtain ⟨row, v, hrow, _, rfl⟩ := zipWith_mem_inv _ _ _ _ hrow1
        simp only [List.map_append, List.map_cons, List.map_nil,
          List.mem_append, List.mem_cons, List.not_mem_nil]
        push_neg
        refine ⟨fun hmem => hfresh row hrow pc (List.mem_cons_of_mem _ hpc) hmem,
          fun he => hnd.1 (he ▸ List.mem_map_of_mem Prod.fst hpc), fun h => h⟩)]
    rw [hlen1]
    rw [zipWith_append_snoc (fun v : PyVal => (k, v)) rows c
      (transposeKC pcs' rows.length)]
    rfl

theorem transposeKC_cons_col : ∀ (ks : List String) (vs : List PyVal)
    (cols : List (List PyVal)) (n : ℕ),
    vs.length = ks.length → cols.length = ks.length →
    transposeKC (List.zip ks (List.zipWith (fun v c => v :: c) vs cols)) (n + 1) =
      List.zip ks vs :: transposeKC (List.zip ks cols) n := by
  intro ks
  induction ks with
  | nil =>
    intro vs cols n hlv hlc
    obtain rfl : vs = [] := List.length_eq_zero.mp hlv
    obtain rfl : cols = [] := List.length_eq_zero.mp hlc
    simp [transposeKC, List.replicate_succ]
  | cons k ks' ih =>
    intro vs cols n hlv hlc
    cases vs with
    | nil => simp at hlv
    | cons v vs' =>
    cases cols with
    | nil => simp at hlc
    | cons c cols' =>
    simp only [List.length_cons, Nat.succ.injEq] at hlv hlc
    simp only [List.zipWith_cons_cons, List.zip_cons_cons, transposeKC]
    rw [show List.zipWith Prod.mk ks'
        (List.zipWith (fun v c => v :: c) vs' cols') =
      List.zip ks' (List.zipWith (fun v c => v :: c) vs' cols') from rfl]
    rw [show List.zipWith Prod.mk ks' cols' = List.zip ks' cols' from rfl]
    rw [ih vs' cols' n hlv hlc]
    rfl

theorem transposeKC_colsOf : ∀ (vss : List (List PyVal)) (ks : List String),
    (∀ vs ∈ vss, vs.length = ks.length) →
    transposeKC (List.zip ks (colsOf ks.length vss)) vss.length =
      vss.map (List.zip ks ·) := by
  intro vss
  induction vss with
  | nil => intro ks _; simp [transposeKC_zero]
  | cons vs vss' ih =>
    intro ks hlen
    rw [show colsOf ks.length (vs :: vss') =
      List.zipWith (fun v c => v :: c) vs (colsOf ks.length vss') from rfl]
    rw [show (vs :: vss').length = vss'.length + 1 from rfl]
    rw [transposeKC_cons_col ks vs (colsOf ks.length vss') vss'.length
      (hlen vs (List.mem_cons_self _ _))
      (colsOf_length _ _ (fun x hx => hlen x (List.mem_cons_of_mem _ hx)))]
    rw [ih ks (fun x hx => hlen x (List.mem_cons_of_mem _ hx))]
    rfl

/-- C7: for every nonempty batch of samples sharing a nonempty,
duplicate-free key list, whose values under each key are homogeneous
(tensors of one shape, or no tensors — the spec's `CollatedSample`
invariant), stacking succeeds and `unbind_samples (stack_samples batch)`
reproduces the original batch exactly. -/
theorem c7_stack_unbind_roundtrip (ks : List String) (vss : List (List PyVal))
    (hnd : ks.Nodup) (hks : ks ≠ []) (hne : vss ≠ [])
    (hlen : ∀ vs ∈ vss, vs.length = ks.length)
    (hgood : ∀ c ∈ colsOf ks.length vss, goodCol c = true) :
    ∃ stacked post,
      stack_samples (vss.map (List.zip ks ·)) = some stacked ∧
      unbind_samples stacked = some (post, vss.map (List.zip ks ·)) := by
  have hN : vss.length ≠ 0 := fun h => hne (List.length_eq_zero.mp h)
  have hcolsLen : (colsOf ks.length vss).length = ks.length :=
    colsOf_length _ _ hlen
  have hcolNE : ∀ c ∈ colsOf ks.length vss, c ≠ [] := by
    intro c hc hcnil
    have := colsOf_mem_length ks.length vss c hc
    rw [hcnil] at this
    exact hN this.symm
  have hld := list_dict_eq_cols ks vss hnd hne hlen
  have hzne : List.zip ks (colsOf ks.length vss) ≠ [] := by
    intro h0
    have hlz : (List.zip ks (colsOf ks.length vss)).length = 0 := by
      rw [h0]; rfl
    rw [List.length_zip, hcolsLen, min_self] at hlz
    exact hks (List.length_eq_zero.mp hlz)
  have hstack : stack_samples (vss.map (List.zip ks ·)) =
      some ((List.zip ks (colsOf ks.length vss)).map
        (fun kv => (kv.1, stackedVal kv.2))) := by
    unfold stack_samples
    rw [hld]
    rw [optMapM_some _ (fun kv : String × List PyVal => (kv.1, stackedVal kv.2))
      (List.zip ks (colsOf ks.length vss)) (fun kv hkv => by
        show (stackValue kv.2).map (fun v => (kv.1, v)) =
          some (kv.1, stackedVal kv.2)
        rw [stackValue_good kv.2 (hgood _ ((List.of_mem_zip hkv).2))
          (hcolNE _ ((List.of_mem_zip hkv).2))]
        rfl)]
  have hmut : unbind_mutate ((List.zip ks (colsOf ks.length vss)).map
      (fun kv => (kv.1, stackedVal kv.2))) =
      some ((List.zip ks (colsOf ks.length vss)).map
        (fun kv => (kv.1, wrapVal kv.2))) := by
    unfold unbind_mutate
    rw [optMapM_map]
    rw [optMapM_some _ (fun kv : String × List PyVal => (kv.1, wrapVal kv.2))
      (List.zip ks (colsOf ks.length vss)) (fun kv hkv => by
        show (unbindValue (stackedVal kv.2)).map (fun v => (kv.1, v)) =
          some (kv.1, wrapVal kv.2)
        rw [(unbindValue_stacked kv.2 (hgood _ ((List.of_mem_zip hkv).2))
          (hcolNE _ ((List.of_mem_zip hkv).2))).1]
        rfl)]
  have hpair : optMapM (fun kv => (pyElems kv.2).map (fun vs => (kv.1, vs)))
      ((List.zip ks (colsOf ks.length vss)).map
        (fun kv => (kv.1, wrapVal kv.2))) =
      some (List.zip ks (colsOf ks.length vss)) := by
    rw [optMapM_map]
    rw [optMapM_some _ (fun kv : String × List PyVal => (kv.1, kv.2))
      (List.zip ks (colsOf ks.length vss)) (fun kv hkv => by
        show (pyElems (wrapVal kv.2)).map (fun vs => (kv.1, vs)) =
          some (kv.1, kv.2)
        rw [(unbindValue_stacked kv.2 (hgood _ ((List.of_mem_zip hkv).2))
          (hcolNE _ ((List.of_mem_zip hkv).2))).2]
        rfl)]
    simp
  have hmax : ((List.zip ks (colsOf ks.length vss)).map
      (fun kv => kv.2.length)).max? = some vss.length := by
    apply max?_const
    · intro h0
      apply hzne
      simpa using h0
    · intro x hx
      obtain ⟨kv, hkv, rfl⟩ := List.mem_map.mp hx
      exact colsOf_mem_length _ _ _ ((List.of_mem_zip hkv).2)
  have hfold : (List.zip ks (colsOf ks.length vss)).foldl
      (fun rows kv => assignRows rows kv.1 kv.2)
      (List.replicate vss.length []) = vss.map (List.zip ks ·) := by
    rw [assignRows_fold (List.zip ks (colsOf ks.length vss))
      (List.replicate vss.length [])
      (by rw [List.map_fst_zip ks _ hcolsLen.ge]; exact hnd)
      (by
        intro pc hpc
        rw [List.length_replicate]
        exact colsOf_mem_length _ _ _ ((List.of_mem_zip hpc).2))
      (by
        intro row hrow pc hpc
        rw [List.eq_of_mem_replicate hrow]
        simp)]
    rw [List.length_replicate]
    rw [zipWith_replicate_nil_append _ _ (transposeKC_length _ _
      (fun pc hpc => colsOf_mem_length _ _ _ ((List.of_mem_zip hpc).2)))]
    exact transposeKC_colsOf vss ks hlen
  have hdict : dict_list_to_list_dict
      ((List.zip ks (colsOf ks.length vss)).map
        (fun kv => (kv.1, wrapVal kv.2))) = some (vss.map (List.zip ks ·)) := by
    unfold dict_list_to_list_dict
    simp only [hpair, hmax, hfold]
  refine ⟨(List.zip ks (colsOf ks.length vss)).map
      (fun kv => (kv.1, stackedVal kv.2)),
    (List.zip ks (colsOf ks.length vss)).map
      (fun kv => (kv.1, wrapVal kv.2)), hstack, ?_⟩
  unfold unbind_samples
  simp only [hmut, hdict, Option.map_some']

/-- Counterexample for C7: on the empty batch (which vacuously shares every
key set and shape condition), `stack_samples` returns the empty dict but
`unbind_samples` of it raises (`max()` of an empty sequence in
`_dict_list_to_list_dict`), so the round trip does not reproduce `[]`. -/
theorem c7_roundtrip_counterexample :
    stack_samples ([] : List Sample) = some [] ∧
    unbind_samples ([] : Sample) = none :=
  ⟨rfl, rfl⟩

/-- A 3×3 test tensor. -/
def t33a : Tens :=
  Tens.vec [Tens.vec [Tens.scal 1, Tens.scal 2, Tens.scal 3],
    Tens.vec [Tens.scal 4, Tens.scal 5, Tens.scal 6],
    Tens.vec [Tens.scal 7, Tens.scal 8, Tens.scal 9]]

/-- Another 3×3 test tensor. -/
def t33b : Tens :=
  Tens.vec [Tens.vec [Tens.scal 9, Tens.scal 8, Tens.scal 7],
    Tens.vec [Tens.scal 6, Tens.scal 5, Tens.scal 4],
    Tens.vec [Tens.scal 3, Tens.scal 2, Tens.scal 1]]

/-- Witness for C7 (amended) at the spec's example: two samples holding
3×3 tensors under `"a"` stack to a single `(2,3,3)` tensor, and unbinding
reproduces the original two-element batch. -/
theorem c7_stack_unbind_roundtrip_witness :
    (∃ stacked post,
      stack_samples ([[PyVal.tens t33a], [PyVal.tens t33b]].map
        (List.zip ["a"] ·)) = some stacked ∧
      unbind_samples stacked =
        some (post, [[PyVal.tens t33a], [PyVal.tens t33b]].map
          (List.zip ["a"] ·))) ∧
    stack_samples ([[PyVal.tens t33a], [PyVal.tens t33b]].map
      (List.zip ["a"] ·)) =
      some [("a", PyVal.tens (Tens.vec [t33a, t33b]))] ∧
    Tens.shape (Tens.vec [t33a, t33b]) = [2, 3, 3] ∧
    Tens.shape t33a = [3, 3] :=
  ⟨c7_stack_unbind_roundtrip ["a"] [[PyVal.tens t33a], [PyVal.tens t33b]]
    (by decide) (List.cons_ne_nil _ _) (List.cons_ne_nil _ _)
    (by decide) (by decide), rfl, rfl, rfl⟩
